import Mathlib

/-!
# Verification of the Lit note editor core

A shallow embedding, in Lean 4, of the two core subsystems of the Lit
note-taking application:

* the selection-aware markdown toolbar engine of `NoteView`
  (`applyTransformation`, `wrapSelection`, `prefixLines` and the toolbar
  operations built on them), and
* the folder/note tree model of `App`
  (`getDescendantFolderIds`, `deleteFolder`, `deleteNote`,
  `generateFolderName`, `loadNotes`).

Modelling conventions:

* JavaScript strings are modelled as `List Char`.  All indices the code
  manipulates are code-unit offsets; for the characters that actually occur
  here (BMP text) this matches `List Char` positions one to one.
* `value.slice(a, b)` is `jsSlice`, `value.slice(0, a)` is `List.take a`,
  `value.slice(a)` is `List.drop a`; these agree with the JS clamping
  behaviour for the argument shapes used by the code (non-negative indices).
* The JS whitespace class (`\s` with the `u` flag, `trimStart`, `trim`)
  is modelled by `isWS`, covering the whitespace characters reachable in
  this code base (ASCII whitespace).  The code treats `\s` and `trimStart`
  uniformly, so the restriction does not affect any of the stated
  properties.
* React state updates (`setNotes`, `setFolders`, ...) become explicit
  state-passing on an `AppState` record.  File-system calls are external
  collaborators; where a catch-block swallows the failure, the model takes
  the failure outcome as an explicit `Bool` parameter; where a write
  failure would abort the state update (`saveFolders`), the model follows
  the success path, which is the path the analysed claims describe.
-/

namespace Lit

/-- JS whitespace (`\s`, `trimStart`): the ASCII whitespace characters. -/
def isWS (c : Char) : Bool :=
  c == ' ' || c == '\t' || c == '\n' || c == '\r' || c == '\x0b' || c == '\x0c'

/-- `value.slice(a, b)` for non-negative `a ≤ b` (JS clamps `b` to the length). -/
def jsSlice (v : List Char) (a b : Nat) : List Char :=
  (v.drop a).take (b - a)

/-- A caret/selection range over a buffer.  The source field `end` is a Lean
keyword, so it is called `stop` here. -/
structure SelectionRange where
  start : Nat
  stop : Nat
deriving DecidableEq

/-- The output of a toolbar transformer: new buffer plus the selection the
host must restore. -/
structure TransformationResult where
  value : List Char
  selectionStart : Nat
  selectionEnd : Nat
deriving DecidableEq

/-- A toolbar transformer: `(value, selection) => TransformationResult`. -/
abbrev Transformer := List Char → SelectionRange → TransformationResult

/-- `applyTransformation` from `NoteView`: invokes the transformer on the
buffer and the selection read off the textarea (passed here as `sel`), then
clamps the returned selection into `[0, value.length]` before restoring it
(`Math.max(0, Math.min(value.length, s))`; on `Nat` the lower clamp is
automatic).  The edit-mode guard, the null-textarea guard and the deferred
focus call are UI glue and elided. -/
def applyTransformation (content : List Char) (sel : SelectionRange)
    (tr : Transformer) : TransformationResult :=
  let r := tr content sel
  ⟨r.value, min r.value.length r.selectionStart, min r.value.length r.selectionEnd⟩

/-- Modelled from the spec: the selection clamp the spec says the engine
applies to the raw selection before invoking the transformer (`§4.1`).  Used
only to compare the spec's description with `applyTransformation`. -/
def clampSel (v : List Char) (sel : SelectionRange) : SelectionRange :=
  ⟨min v.length sel.start, min v.length sel.stop⟩

/-- A probe transformer whose output records the selection it was invoked
with; used to observe what `applyTransformation` passes on. -/
def probeT : Transformer := fun _ sel =>
  ⟨List.replicate sel.start 'a', sel.start, sel.stop⟩

/-- `wrapSelection(prefix, suffix, { placeholder, collapseToEnd })` from
`NoteView`, as the transformer it hands to `applyTransformation`. -/
def wrapSelectionT (pre suf ph : List Char) (collapseToEnd : Bool) : Transformer :=
  fun value sel =>
    let hasSelection := sel.start ≠ sel.stop
    let selected := if hasSelection then jsSlice value sel.start sel.stop else ph
    let insertion := pre ++ selected ++ suf
    let nextValue := value.take sel.start ++ insertion ++ value.drop sel.stop
    if collapseToEnd then
      let caret := sel.start + insertion.length
      ⟨nextValue, caret, caret⟩
    else
      let selectionStart := sel.start + pre.length
      let selectionEnd := selectionStart + selected.length
      ⟨nextValue, selectionStart, selectionEnd⟩

end Lit

namespace Lit

/-- Index of the first `'\n'` in `l`, if any. -/
def firstNLIn : List Char → Option Nat
  | [] => none
  | c :: rest => if c = '\n' then some 0 else (firstNLIn rest).map (· + 1)

/-- `value.indexOf("\n", i)` (as an `Option`): index of the first `'\n'` at
position `≥ i`. -/
def firstNLFrom (v : List Char) (i : Nat) : Option Nat :=
  (firstNLIn (v.drop i)).map (i + ·)

/-- Search downward from `k` for the largest index `≤ k` holding `'\n'`. -/
def lastNLsearch (v : List Char) : Nat → Option Nat
  | 0 => if 0 < v.length ∧ v.getD 0 ' ' = '\n' then some 0 else none
  | k + 1 =>
    if k + 1 < v.length ∧ v.getD (k + 1) ' ' = '\n' then some (k + 1)
    else lastNLsearch v k

/-- `value.lastIndexOf("\n", pos)` (as an `Option`): JS clamps the from-index
into `[0, length]`, so a negative `pos` still examines index `0`. -/
def lastNLUpTo (v : List Char) (pos : Int) : Option Nat :=
  lastNLsearch v (max pos 0).toNat

/-- `prefixLines`' line-start computation:
`lineStart = value.lastIndexOf("\n", start - 1)`, `-1 ↦ 0`, else `+ 1`. -/
def lineStartOf (v : List Char) (s : Nat) : Nat :=
  match lastNLUpTo v ((s : Int) - 1) with
  | none => 0
  | some j => j + 1

/-- `prefixLines`' line-end computation:
`lineEnd = value.indexOf("\n", end)`, `-1 ↦ value.length`. -/
def lineEndOf (v : List Char) (e : Nat) : Nat :=
  match firstNLFrom v e with
  | none => v.length
  | some j => j

/-- The whole-lines block `value.slice(lineStart, lineEnd)` spanned by a
selection `{s, e}`. -/
def blockOf (v : List Char) (s e : Nat) : List Char :=
  jsSlice v (lineStartOf v s) (lineEndOf v e)

/-- `block.split("\n")` (JS semantics: `"".split` is `[""]`, a trailing
newline yields a trailing `""`). -/
def splitOnNL : List Char → List (List Char)
  | [] => [[]]
  | c :: rest =>
    match splitOnNL rest with
    | [] => [[c]]
    | l :: ls => if c = '\n' then [] :: l :: ls else (c :: l) :: ls

/-- `lines.join("\n")`. -/
def joinNL : List (List Char) → List Char
  | [] => []
  | [l] => l
  | l :: l' :: ls => l ++ '\n' :: joinNL (l' :: ls)

/-- `lines.map((line, index) => g index line)`. -/
def mapLinesIdx (g : Nat → List Char → List Char) : Nat → List (List Char) → List (List Char)
  | _, [] => []
  | i, l :: ls => g i l :: mapLinesIdx g (i + 1) ls

/-- The per-line rewrite of `prefixLines`: apply `transformLine` (when
given), then prepend `prefix` unless the line already starts with it. -/
def gLine (pre : List Char) (tl : Option (List Char → Nat → List Char))
    (i : Nat) (line : List Char) : List Char :=
  let transformedLine := match tl with | some f => f line i | none => line
  if pre.isPrefixOf transformedLine then transformedLine else pre ++ transformedLine

/-- `prefixLines(prefix, { placeholder, transformLine })` from `NoteView`,
as the transformer it hands to `applyTransformation`. -/
def prefixLinesT (pre ph : List Char) (tl : Option (List Char → Nat → List Char)) :
    Transformer := fun value sel =>
  if sel.start = sel.stop then
    let insertion := pre ++ ph
    let nextValue := value.take sel.start ++ insertion ++ value.drop sel.stop
    let cursorStart := sel.start + pre.length
    let cursorEnd := cursorStart + ph.length
    ⟨nextValue, cursorStart, cursorEnd⟩
  else
    let lineStart := lineStartOf value sel.start
    let lineEnd := lineEndOf value sel.stop
    let block := jsSlice value lineStart lineEnd
    let lines := splitOnNL block
    let formatted := joinNL (mapLinesIdx (gLine pre tl) 0 lines)
    let nextValue := value.take lineStart ++ formatted ++ value.drop lineEnd
    ⟨nextValue, lineStart, lineStart + formatted.length⟩

/-- `line.trimStart()`. -/
def trimStart (l : List Char) : List Char := l.dropWhile (fun c => isWS c)

/-- `line.replace(/^\d+\.\s*\/u, "")`: strip one leading digit-run, a dot and
any following whitespace; leave the line unchanged when the pattern does not
match. -/
def stripNumDot (l : List Char) : List Char :=
  if l.takeWhile Char.isDigit = [] then l
  else
    match l.dropWhile Char.isDigit with
    | c :: rest => if c = '.' then rest.dropWhile (fun c => isWS c) else l
    | [] => l

/-- `line.replace(/^>\s?\/u, "")`: strip one leading `>` plus at most one
whitespace character. -/
def stripQuoteMark (l : List Char) : List Char :=
  match l with
  | c :: rest =>
    if c = '>' then
      match rest with
      | c2 :: rest2 => if isWS c2 then rest2 else c2 :: rest2
      | [] => []
    else l
  | [] => l

/-- `line.replace(/^#{1,6}\s*\/u, "")`: strip up to six leading `#` and the
whitespace after them; no-op when the line does not start with `#`. -/
def stripHeadingMark (l : List Char) : List Char :=
  let hs := l.takeWhile (fun c => c = '#')
  if hs = [] then l
  else (l.drop (min hs.length 6)).dropWhile (fun c => isWS c)

/-- `line.replace(/^(-|\*)\s*\/u, "")`. -/
def stripBulletMark (l : List Char) : List Char :=
  match l with
  | c :: rest => if c = '-' ∨ c = '*' then rest.dropWhile (fun c => isWS c) else l
  | [] => l

/-- `line.replace(/^(-|\*)\s*\[( |x|X)\]\s*\/u, "")`. -/
def stripChecklistMark (l : List Char) : List Char :=
  match l with
  | c :: rest =>
    if c = '-' ∨ c = '*' then
      match rest.dropWhile (fun c => isWS c) with
      | b1 :: b2 :: b3 :: rest2 =>
        if b1 = '[' ∧ (b2 = ' ' ∨ b2 = 'x' ∨ b2 = 'X') ∧ b3 = ']' then
          rest2.dropWhile (fun c => isWS c)
        else l
      | _ => l
    else l
  | [] => l

/-- Decimal digits of `n`, most significant first (`${n}` in a template
literal), via explicit structural fuel so that it evaluates by `decide`. -/
def natToCharsAux : Nat → Nat → List Char
  | 0, _ => []
  | fuel + 1, n =>
    if n = 0 then []
    else natToCharsAux fuel (n / 10) ++ [Char.ofNat (48 + n % 10)]

/-- `${n}` : the decimal representation of `n`. -/
def natToChars (n : Nat) : List Char :=
  if n = 0 then ['0'] else natToCharsAux n n

/-- `insertHeading(level)`: clamp the level into `[1,6]`, then `prefixLines`
with that many `#` and a space. -/
def insertHeadingT (level : Nat) : Transformer :=
  let hashes := List.replicate (min (max level 1) 6) '#'
  prefixLinesT (hashes ++ [' ']) (("Heading ".toList) ++ natToChars level)
    (some fun line _ => stripHeadingMark line)

/-- `insertOrderedList`: `prefixLines("")` with renumbering `transformLine`. -/
def insertOrderedListT : Transformer :=
  prefixLinesT [] ("1. List item".toList)
    (some fun line index => natToChars (index + 1) ++ '.' :: ' ' :: trimStart (stripNumDot line))

/-- `insertChecklist`. -/
def insertChecklistT : Transformer :=
  prefixLinesT ("- [ ] ".toList) ("To-do item".toList)
    (some fun line _ =>
      let cleaned := stripBulletMark (stripChecklistMark line)
      if cleaned = [] then "Task".toList else cleaned)

/-- The blockquote toolbar button: `prefixLines("> ", ...)`. -/
def blockquoteT : Transformer :=
  prefixLinesT ("> ".toList) ("Quote".toList) (some fun line _ => stripQuoteMark line)

/-- The bullet-list toolbar button: `prefixLines("- ", ...)`. -/
def bulletListT : Transformer :=
  prefixLinesT ("- ".toList) ("List item".toList) (some fun line _ => stripBulletMark line)

/-- `insertHorizontalRule`. -/
def insertHorizontalRuleT : Transformer := fun value sel =>
  let insertion := "\n\n---\n\n".toList
  let nextValue := value.take sel.start ++ insertion ++ value.drop sel.stop
  let caret := sel.start + insertion.length
  ⟨nextValue, caret, caret⟩

/-- `insertLink`. -/
def insertLinkT : Transformer := fun value sel =>
  let hasSelection := sel.start ≠ sel.stop
  let label := if hasSelection then jsSlice value sel.start sel.stop else "Link text".toList
  let urlPlaceholder := "https://".toList
  let linkSyntax := '[' :: label ++ ']' :: '(' :: urlPlaceholder ++ [')']
  let nextValue := value.take sel.start ++ linkSyntax ++ value.drop sel.stop
  let urlStart := sel.start + label.length + 3
  let urlEnd := urlStart + urlPlaceholder.length
  ⟨nextValue, urlStart, urlEnd⟩

/-- `insertImage`. -/
def insertImageT : Transformer := fun value sel =>
  let hasSelection := sel.start ≠ sel.stop
  let altText := if hasSelection then jsSlice value sel.start sel.stop else "Alt text".toList
  let urlPlaceholder := "https://".toList
  let imageSyntax := '!' :: '[' :: altText ++ ']' :: '(' :: urlPlaceholder ++ [')']
  let nextValue := value.take sel.start ++ imageSyntax ++ value.drop sel.stop
  let urlStart := sel.start + altText.length + 4
  let urlEnd := urlStart + urlPlaceholder.length
  ⟨nextValue, urlStart, urlEnd⟩

/-! ## The folder/note tree model (`App`) -/

/-- Entity ids are opaque strings (`Date.now().toString()` at creation). -/
abbrev Ident := List Char

/-- A note: `{id, title, content, createdAt, folderId}`. -/
structure Note where
  id : Ident
  title : List Char
  content : List Char
  createdAt : Nat
  folderId : Option Ident
deriving DecidableEq

/-- A folder: `{id, name, parentId, createdAt}`. -/
structure Folder where
  id : Ident
  name : List Char
  parentId : Option Ident
  createdAt : Nat
deriving DecidableEq

/-- The in-memory state of `App`: the `useState` cells the tree operations
touch. -/
structure AppState where
  notes : List Note
  folders : List Folder
  currentNote : Option Note
  noteTitle : List Char
  noteContent : List Char
  currentFolderId : Option Ident
deriving DecidableEq

/-- One iteration of the `while` loop of `getDescendantFolderIds`: the
`for (const folder of allFolders)` pass for the popped `current` id.
The `descendants` set is the duplicate-free list `acc.1` (only membership is
used), the stack is `acc.2` kept top-first (JS pushes to and pops from the
array end). -/
def descStep (current : Ident) (allFolders : List Folder)
    (acc : List Ident × List Ident) : List Ident × List Ident :=
  allFolders.foldl
    (fun acc f =>
      if f.parentId = some current ∧ ¬ f.id ∈ acc.1
      then (acc.1 ++ [f.id], f.id :: acc.2)
      else acc)
    acc

/-- The `while (stack.length > 0)` loop of `getDescendantFolderIds`, with an
explicit iteration budget.  The visited-set guard admits each folder id to
the stack at most once, so `allFolders.length + 1` iterations always drain
the stack; `descLoopF_run` below proves the budget is never exhausted. -/
def descLoopF (allFolders : List Folder) : Nat → List Ident → List Ident → List Ident
  | 0, ds, _ => ds
  | fuel + 1, ds, stack =>
    match stack with
    | [] => ds
    | current :: rest =>
      let nx := descStep current allFolders (ds, rest)
      descLoopF allFolders fuel nx.1 nx.2

/-- `getDescendantFolderIds(folderId, allFolders)`: the descendant closure
(including `folderId` itself), computed by stack traversal with a
visited-set guard. -/
def getDescendantFolderIds (folderId : Ident) (allFolders : List Folder) : List Ident :=
  descLoopF allFolders (allFolders.length + 1) [folderId] [folderId]

/-- Reachability along child edges: the ids whose `parentId` chain passes
through `root` (plus `root` itself).  This is the specification-level
descendant closure `getDescendantFolderIds` is claimed to compute. -/
inductive Reaches (allFolders : List Folder) (root : Ident) : Ident → Prop
  | refl : Reaches allFolders root root
  | step {p : Ident} {f : Folder} :
      Reaches allFolders root p → f ∈ allFolders → f.parentId = some p →
      Reaches allFolders root f.id

/-- The note-deletion predicate of `deleteFolder`:
`note.folderId && foldersToDelete.has(note.folderId)`.  JS truthiness makes
both `null` and the empty string falsy. -/
def noteInDeletedSubtree (foldersToDelete : List Ident) (n : Note) : Bool :=
  match n.folderId with
  | some fid => !(fid == []) && foldersToDelete.contains fid
  | none => false

/-- `deleteFolder(folderId)` from `App`.  The per-note `remove` failures are
caught and only logged, so they do not affect the in-memory state.  The
final step is `await saveFolders(remainingFolders)`, and `saveFolders` calls
`setFolders` only after its write succeeds: `saveOk` is that write's
outcome — on failure the catch block logs and the in-memory folder
collection is left unchanged, while the note removal and the UI-state
updates have already happened unconditionally. -/
def deleteFolder (saveOk : Bool) (folderId : Ident) (st : AppState) : AppState :=
  let foldersToDelete := getDescendantFolderIds folderId st.folders
  let notesToDelete := st.notes.filter (noteInDeletedSubtree foldersToDelete)
  let remainingNotes := st.notes.filter (fun n => ! notesToDelete.any (fun d => d.id == n.id))
  let clearOpen : Bool := match st.currentNote with
    | some cn => notesToDelete.any (fun n => n.id == cn.id)
    | none => false
  let resetFolderSel : Bool := match st.currentFolderId with
    | some c => !(c == []) && foldersToDelete.contains c
    | none => false
  let remainingFolders := st.folders.filter (fun f => ! foldersToDelete.contains f.id)
  ⟨remainingNotes,
    if saveOk then remainingFolders else st.folders,
    if clearOpen then none else st.currentNote,
    if clearOpen then [] else st.noteTitle,
    if clearOpen then [] else st.noteContent,
    if resetFolderSel then none else st.currentFolderId⟩

/-- `deleteNote(noteId)` from `App`.  `fsOk` is the outcome of the `remove`
call; its catch-block only logs, so both outcomes continue identically.
Returns the new state together with the console-error lines produced. -/
def deleteNote (fsOk : Bool) (noteId : Ident) (st : AppState) :
    AppState × List (List Char) :=
  let log : List (List Char) := if fsOk then [] else ["Error deleting note file:".toList]
  let remainingNotes := st.notes.filter (fun n => !(n.id == noteId))
  let isOpen : Bool := match st.currentNote with
    | some cn => cn.id == noteId
    | none => false
  (⟨remainingNotes, st.folders,
    if isOpen then none else st.currentNote,
    if isOpen then [] else st.noteTitle,
    if isOpen then [] else st.noteContent,
    st.currentFolderId⟩, log)

/-- The default folder base name. -/
def baseName : List Char := "New Folder".toList

/-- `name.trim()`. -/
def trim (l : List Char) : List Char :=
  ((l.dropWhile (fun c => isWS c)).reverse.dropWhile (fun c => isWS c)).reverse

/-- The candidate name `` `${baseName} ${counter}` ``. -/
def folderNameFor (k : Nat) : List Char := baseName ++ ' ' :: natToChars k

/-- The trimmed names of the folders sharing `parentId`. -/
def siblingNames (parentId : Option Ident) (folders : List Folder) : List (List Char) :=
  (folders.filter (fun f => f.parentId = parentId)).map (fun f => trim f.name)

/-- The `while (siblingNames.has(...)) counter += 1` loop of
`generateFolderName`, with an explicit iteration budget.  With budget
`sib.length + 1` the loop always exits on a free name
(`findFreeCounter_free` below), matching the unbounded source loop. -/
def findFreeCounter (sib : List (List Char)) : Nat → Nat → Nat
  | 0, counter => counter
  | fuel + 1, counter =>
    if folderNameFor counter ∈ sib then findFreeCounter sib fuel (counter + 1)
    else counter

/-- `generateFolderName(parentId)` from `App`. -/
def generateFolderName (parentId : Option Ident) (folders : List Folder) : List Char :=
  let sib := siblingNames parentId folders
  if baseName ∈ sib then folderNameFor (findFreeCounter sib (sib.length + 1) 2)
  else baseName

/-- `createNewFolder(parentId)` on the persistence success path: appends the
new folder (fresh id `newId`, creation time `now`) with the generated name. -/
def createNewFolder (newId : Ident) (now : Nat) (parentId : Option Ident)
    (folders : List Folder) : List Folder :=
  folders ++ [⟨newId, generateFolderName parentId folders, parentId, now⟩]

/-- Stable descending insertion for the comparator
`(a, b) => b.createdAt - a.createdAt`: the new element goes after every
already-placed element whose `createdAt` is at least as large. -/
def insDesc (a : Note) : List Note → List Note
  | [] => [a]
  | b :: l => if a.createdAt ≤ b.createdAt then b :: insDesc a l else a :: b :: l

/-- `loadedNotes.sort((a, b) => b.createdAt - a.createdAt)`: JS `sort` is a
stable comparator sort, and the stable sorted permutation is unique, here
realised as insertion sort. -/
def sortByCreatedAtDesc (l : List Note) : List Note :=
  l.foldl (fun acc n => insDesc n acc) []

/-- `loadNotes` from `App`: each eligible directory entry yields a parse
outcome (`none` = parse failure, which is logged and skipped); the
successfully parsed notes are collected in directory order and sorted by
creation date, newest first. -/
def loadNotes (parsed : List (Option Note)) : List Note :=
  sortByCreatedAtDesc (parsed.filterMap id)

/-- Decimal parse; the left inverse of `natToChars`, used to prove the
decimal representation injective. -/
def charsToNat (l : List Char) : Nat :=
  l.foldl (fun acc c => acc * 10 + (c.toNat - 48)) 0

/-- Test fixture: the spec's cascading-delete scenario (§8): folders
`A -> B -> C` (B child of A, C child of B) and an unrelated root sibling
`D`, each containing one note; the folder view is inside the doomed
subtree (`C`). -/
def scenarioState : AppState :=
  ⟨[⟨"na".toList, [], [], 0, some ("A".toList)⟩,
    ⟨"nb".toList, [], [], 1, some ("B".toList)⟩,
    ⟨"nc".toList, [], [], 2, some ("C".toList)⟩,
    ⟨"nd".toList, [], [], 3, some ("D".toList)⟩],
   [⟨"A".toList, "A".toList, none, 0⟩,
    ⟨"B".toList, "B".toList, some ("A".toList), 1⟩,
    ⟨"C".toList, "C".toList, some ("B".toList), 2⟩,
    ⟨"D".toList, "D".toList, none, 3⟩],
   none, [], [], some ("C".toList)⟩

/-- Test fixture: two notes sharing the id `"x"`, one filed under folder
`A`, the other at root. -/
def dupIdState : AppState :=
  ⟨[⟨"x".toList, [], [], 0, some ("A".toList)⟩,
    ⟨"x".toList, [], [], 0, none⟩],
   [⟨"A".toList, "A".toList, none, 0⟩],
   none, [], [], none⟩

end Lit

namespace Lit

theorem jsSlice_middle (x y z : List Char) :
    jsSlice (x ++ y ++ z) x.length (x.length + y.length) = y := by
  unfold jsSlice
  rw [Nat.add_sub_cancel_left]
  rw [List.append_assoc, List.drop_left, List.take_left]

/-- **C3, counterexample.**  The claim asserts the wrap-selection round trip
for *every* `wrapSelection` call, "any ... collapseToEnd flag".  With
`collapseToEnd = true` the returned selection is a collapsed caret after the
inserted text, so the text between the returned offsets is empty and does
not equal the originally selected text: bold-wrapping the selection
`{6,11}` ("world") of `"hello world"` with `collapseToEnd = true` returns
selection `{15,15}`, and the text between the offsets is `""`, not
`"world"`. -/
theorem wrapSelection_collapse_breaks_roundtrip :
    ¬ (jsSlice (wrapSelectionT ("**".toList) ("**".toList) ("Bold text".toList) true
          ("hello world".toList) ⟨6, 11⟩).value
        (wrapSelectionT ("**".toList) ("**".toList) ("Bold text".toList) true
          ("hello world".toList) ⟨6, 11⟩).selectionStart
        (wrapSelectionT ("**".toList) ("**".toList) ("Bold text".toList) true
          ("hello world".toList) ⟨6, 11⟩).selectionEnd
      = jsSlice ("hello world".toList) 6 11) := by
  decide

/-- **C3, amended.**  For every buffer, every selection with
`0 ≤ start ≤ end ≤ length(buffer)` and every `wrapSelection` call with
`collapseToEnd = false` (the default, used by every toolbar button), the
substring of the returned value between the returned `selectionStart` and
`selectionEnd` equals the originally selected text when `start ≠ end`, and
the placeholder when the selection was empty; with `collapseToEnd = true`
the returned selection is instead a collapsed caret.  In particular, on
buffer `"hello world"` with selection `{6,11}`, bold wrap yields
`"hello **world**"` with selection `{8,13}`. -/
theorem wrapSelection_roundtrip :
    (∀ pre suf ph v : List Char, ∀ s e : Nat, s ≤ e → e ≤ v.length →
      jsSlice (wrapSelectionT pre suf ph false v ⟨s, e⟩).value
          (wrapSelectionT pre suf ph false v ⟨s, e⟩).selectionStart
          (wrapSelectionT pre suf ph false v ⟨s, e⟩).selectionEnd
        = if s = e then ph else jsSlice v s e) ∧
    ((wrapSelectionT ("**".toList) ("**".toList) ("Bold text".toList) false
        ("hello world".toList) ⟨6, 11⟩).value = "hello **world**".toList ∧
      (wrapSelectionT ("**".toList) ("**".toList) ("Bold text".toList) false
        ("hello world".toList) ⟨6, 11⟩).selectionStart = 8 ∧
      (wrapSelectionT ("**".toList) ("**".toList) ("Bold text".toList) false
        ("hello world".toList) ⟨6, 11⟩).selectionEnd = 13) := by
  constructor
  · intro pre suf ph v s e hse hev
    have hs : s ≤ v.length := le_trans hse hev
    simp only [wrapSelectionT]
    by_cases h : s = e
    · simp only [h, ne_eq, not_true_eq_false, if_false, if_neg (by simp : ¬ (e ≠ e))]
      have hx : (v.take e ++ pre).length = e + pre.length := by
        simp [List.length_take, Nat.min_eq_left hev]
      have := jsSlice_middle (v.take e ++ pre) ph (suf ++ v.drop e)
      rw [hx] at this
      simpa [List.append_assoc] using this
    · simp only [ne_eq, h, not_false_iff, if_true, if_pos (by exact h : s ≠ e)]
      have hx : (v.take s ++ pre).length = s + pre.length := by
        simp [List.length_take, Nat.min_eq_left hs]
      have := jsSlice_middle (v.take s ++ pre) (jsSlice v s e) (suf ++ v.drop e)
      rw [hx] at this
      simpa [List.append_assoc] using this
  · exact ⟨by decide, by decide, by decide⟩

/-- **C3 witness**: the amended round trip evaluated at the spec's bold-wrap
scenario: buffer `"hello world"`, selection `{6,11}`. -/
theorem wrapSelection_roundtrip_witness :
    jsSlice (wrapSelectionT ("**".toList) ("**".toList) ("Bold text".toList) false
        ("hello world".toList) ⟨6, 11⟩).value
      (wrapSelectionT ("**".toList) ("**".toList) ("Bold text".toList) false
        ("hello world".toList) ⟨6, 11⟩).selectionStart
      (wrapSelectionT ("**".toList) ("**".toList) ("Bold text".toList) false
        ("hello world".toList) ⟨6, 11⟩).selectionEnd
      = if 6 = 11 then ("Bold text".toList) else jsSlice ("hello world".toList) 6 11 := by
  exact wrapSelection_roundtrip.1 ("**".toList) ("**".toList) ("Bold text".toList)
    ("hello world".toList) 6 11 (by decide) (by decide)

/-- **C4, counterexample.**  The claim asserts the selection is clamped into
`[0, length(buffer)]` *before* the transformer is invoked.  No such clamp
exists in `applyTransformation`: the raw selection is passed through, so a
transformer can observe an out-of-range selection.  If the engine clamped
first, its behaviour would be invariant under pre-clamping the selection;
on buffer `"ab"` with raw selection `{5,5}` and a probe transformer whose
output length records the received `start`, the two runs differ (the probe
sees `5`, not `2`). -/
theorem applyTransformation_no_preclamp :
    ¬ (applyTransformation ("ab".toList) ⟨5, 5⟩ probeT
        = applyTransformation ("ab".toList) (clampSel ("ab".toList) ⟨5, 5⟩) probeT) := by
  decide

/-- **C4, amended.**  `applyTransformation` passes the raw selection to the
transformer unchanged (no pre-clamp: the returned value is the transformer's
value at the *raw* selection), and clamps the selection the transformer
returns into `[0, length(result.value)]` before it is restored: the restored
offsets are `min length` of the returned ones and hence always in range. -/
theorem applyTransformation_clamps_output :
    ∀ (content : List Char) (sel : SelectionRange) (tr : Transformer),
      (applyTransformation content sel tr).value = (tr content sel).value ∧
      (applyTransformation content sel tr).selectionStart
        = min (tr content sel).value.length (tr content sel).selectionStart ∧
      (applyTransformation content sel tr).selectionEnd
        = min (tr content sel).value.length (tr content sel).selectionEnd ∧
      (applyTransformation content sel tr).selectionStart
        ≤ (applyTransformation content sel tr).value.length ∧
      (applyTransformation content sel tr).selectionEnd
        ≤ (applyTransformation content sel tr).value.length := by
  intro content sel tr
  refine ⟨rfl, rfl, rfl, ?_, ?_⟩ <;> simp [applyTransformation]

/-! ## C9: `deleteNote` -/

/-- **C9.**  For every state and note id, `deleteNote` removes the note with
that id from the in-memory collection regardless of whether the deletion of
the persisted file succeeds (`fsOk = true`) or fails (`fsOk = false`) — the
resulting in-memory state is identical in both runs, the failure being only
logged — the folder collection is untouched, and if the deleted id was the
open note the open-note UI state (current note, title, content) is cleared,
while a different open note survives. -/
theorem deleteNote_removes_and_clears :
    ∀ (st : AppState) (noteId : Ident) (fsOk : Bool),
      (deleteNote fsOk noteId st).1 = (deleteNote true noteId st).1 ∧
      (deleteNote fsOk noteId st).1.notes
        = st.notes.filter (fun n => !(n.id == noteId)) ∧
      (deleteNote fsOk noteId st).1.folders = st.folders ∧
      (∀ cn, st.currentNote = some cn → cn.id = noteId →
        (deleteNote fsOk noteId st).1.currentNote = none ∧
        (deleteNote fsOk noteId st).1.noteTitle = [] ∧
        (deleteNote fsOk noteId st).1.noteContent = []) ∧
      (∀ cn, st.currentNote = some cn → cn.id ≠ noteId →
        (deleteNote fsOk noteId st).1.currentNote = some cn) := by
  intro st noteId fsOk
  refine ⟨rfl, rfl, rfl, ?_, ?_⟩
  · intro cn hcn hid
    simp [deleteNote, hcn, hid]
  · intro cn hcn hid
    simp [deleteNote, hcn, hid]

/-- **C9 witness**: deleting the open note `"a"` with a *failing* file
removal still clears the open-note state and removes the note. -/
theorem deleteNote_removes_and_clears_witness :
    ((⟨['a'], [], [], 5, none⟩ : Note) : Note) = ⟨['a'], [], [], 5, none⟩ ∧
    (deleteNote false ['a']
        ⟨[⟨['a'], [], [], 5, none⟩], [], some ⟨['a'], [], [], 5, none⟩,
          ['t'], ['c'], none⟩).1.currentNote = none := by
  refine ⟨rfl, ?_⟩
  exact ((deleteNote_removes_and_clears
      ⟨[⟨['a'], [], [], 5, none⟩], [], some ⟨['a'], [], [], 5, none⟩,
        ['t'], ['c'], none⟩ ['a'] false).2.2.2.1
    ⟨['a'], [], [], 5, none⟩ rfl rfl).1

/-! ## C10: `loadNotes` ordering -/

theorem mem_insDesc {a x : Note} {l : List Note} :
    x ∈ insDesc a l ↔ x = a ∨ x ∈ l := by
  induction l with
  | nil => simp [insDesc]
  | cons b l ih =>
    by_cases h : a.createdAt ≤ b.createdAt
    · simp only [insDesc, if_pos h, List.mem_cons, ih]
      tauto
    · simp only [insDesc, if_neg h, List.mem_cons]

theorem pairwise_insDesc {a : Note} {l : List Note}
    (h : l.Pairwise (fun x y => y.createdAt ≤ x.createdAt)) :
    (insDesc a l).Pairwise (fun x y => y.createdAt ≤ x.createdAt) := by
  induction l with
  | nil => simp [insDesc]
  | cons b l ih =>
    rw [List.pairwise_cons] at h
    by_cases hab : a.createdAt ≤ b.createdAt
    · rw [insDesc, if_pos hab, List.pairwise_cons]
      refine ⟨?_, ih h.2⟩
      intro y hy
      rcases mem_insDesc.mp hy with rfl | hyl
      · exact hab
      · exact h.1 y hyl
    · rw [insDesc, if_neg hab, List.pairwise_cons]
      refine ⟨?_, List.pairwise_cons.mpr h⟩
      intro y hy
      rcases List.mem_cons.mp hy with rfl | hyl
      · exact Nat.le_of_lt (Nat.lt_of_not_le hab)
      · exact le_trans (h.1 y hyl) (Nat.le_of_lt (Nat.lt_of_not_le hab))

theorem insDesc_perm (a : Note) (l : List Note) : (insDesc a l).Perm (a :: l) := by
  induction l with
  | nil => simp [insDesc]
  | cons b l ih =>
    by_cases h : a.createdAt ≤ b.createdAt
    · rw [insDesc, if_pos h]
      exact (ih.cons b).trans (List.Perm.swap a b l)
    · rw [insDesc, if_neg h]

theorem foldl_insDesc_pairwise :
    ∀ (l acc : List Note),
      acc.Pairwise (fun x y => y.createdAt ≤ x.createdAt) →
      (l.foldl (fun acc n => insDesc n acc) acc).Pairwise
        (fun x y => y.createdAt ≤ x.createdAt) := by
  intro l
  induction l with
  | nil => intro acc h; exact h
  | cons n l ih =>
    intro acc h
    exact ih (insDesc n acc) (pairwise_insDesc h)

theorem foldl_insDesc_perm :
    ∀ (l acc : List Note),
      (l.foldl (fun acc n => insDesc n acc) acc).Perm (acc ++ l) := by
  intro l
  induction l with
  | nil => intro acc; simp
  | cons n l ih =>
    intro acc
    refine (ih (insDesc n acc)).trans ?_
    refine (List.Perm.append_right l (insDesc_perm n acc)).trans ?_
    exact List.perm_middle.symm

/-- **C10, counterexample.**  The implicit claim says the post-`loadNotes`
collection is in *strictly* descending `createdAt` order; two successfully
parsed notes with equal `createdAt` refute strictness. -/
theorem loadNotes_not_strictly_sorted :
    ¬ List.Pairwise (fun a b : Note => b.createdAt < a.createdAt)
      (loadNotes [some ⟨['a'], [], [], 5, none⟩, some ⟨['b'], [], [], 5, none⟩]) := by
  decide

/-- **C10, amended.**  After `loadNotes`, the in-memory note collection is
exactly the successfully parsed notes, sorted by `createdAt` in descending
(non-increasing, newest-first) comparator order; ties of equal `createdAt`
are allowed and keep their relative order.  This holds for every list of
parse outcomes and is nowhere stated in the spec. -/
theorem loadNotes_sorted_desc :
    ∀ parsed : List (Option Note),
      (loadNotes parsed).Pairwise (fun a b => b.createdAt ≤ a.createdAt) ∧
      (loadNotes parsed).Perm (parsed.filterMap id) := by
  intro parsed
  constructor
  · exact foldl_insDesc_pairwise (parsed.filterMap id) [] (by simp)
  · simpa using foldl_insDesc_perm (parsed.filterMap id) []

/-! ## C8: `generateFolderName` -/

theorem natToCharsAux_zero : ∀ fuel, natToCharsAux fuel 0 = [] := by
  intro fuel
  cases fuel <;> simp [natToCharsAux]

theorem digitChar_toNat : ∀ d, d < 10 → (Char.ofNat (48 + d)).toNat = 48 + d := by
  decide

theorem charsToNat_append_digit (l : List Char) (c : Char) :
    charsToNat (l ++ [c]) = charsToNat l * 10 + (c.toNat - 48) := by
  simp [charsToNat, List.foldl_append]

theorem charsToNat_natToCharsAux :
    ∀ fuel n, n ≤ fuel → charsToNat (natToCharsAux fuel n) = n := by
  intro fuel
  induction fuel with
  | zero =>
    intro n hn
    interval_cases n
    simp [natToCharsAux, charsToNat]
  | succ fuel ih =>
    intro n hn
    by_cases h0 : n = 0
    · simp [natToCharsAux, h0, charsToNat]
    · rw [natToCharsAux, if_neg h0, charsToNat_append_digit]
      have hd : (Char.ofNat (48 + n % 10)).toNat = 48 + n % 10 :=
        digitChar_toNat (n % 10) (Nat.mod_lt n (by omega))
      rw [hd, Nat.add_sub_cancel_left]
      have hdiv : n / 10 ≤ fuel := by
        have : n / 10 < n := Nat.div_lt_self (Nat.pos_of_ne_zero h0) (by omega)
        omega
      rw [ih (n / 10) hdiv]
      omega

theorem charsToNat_natToChars (n : Nat) : charsToNat (natToChars n) = n := by
  by_cases h0 : n = 0
  · simp [natToChars, h0, charsToNat]
  · rw [natToChars, if_neg h0]
    exact charsToNat_natToCharsAux n n le_rfl

theorem natToChars_inj : Function.Injective natToChars := by
  intro a b h
  have := congrArg charsToNat h
  rwa [charsToNat_natToChars, charsToNat_natToChars] at this

theorem folderNameFor_inj : Function.Injective folderNameFor := by
  intro j k h
  unfold folderNameFor at h
  have h1 := List.append_cancel_left h
  exact natToChars_inj (by injection h1)

/-- In any finite list of names, some candidate `"New Folder k"` with
`k ∈ [2, sib.length + 2]` is unused (pigeonhole via injectivity of the
decimal representation). -/
theorem exists_free_counter (sib : List (List Char)) :
    ∃ m, m < sib.length + 1 ∧ folderNameFor (2 + m) ∉ sib := by
  by_contra h
  push_neg at h
  set C := (List.range (sib.length + 1)).map (fun m => folderNameFor (2 + m)) with hC
  have hinj : Function.Injective (fun m => folderNameFor (2 + m)) := by
    intro a b hab
    have := folderNameFor_inj hab
    omega
  have hnodup : C.Nodup := (List.nodup_range _).map hinj
  have hsub : C ⊆ sib := by
    intro x hx
    rw [hC, List.mem_map] at hx
    obtain ⟨m, hm, rfl⟩ := hx
    exact h m (List.mem_range.mp hm)
  have hcard : C.length ≤ sib.length := by
    calc C.length = C.toFinset.card := (List.toFinset_card_of_nodup hnodup).symm
      _ ≤ sib.toFinset.card := Finset.card_le_card (fun x hx => by
          rw [List.mem_toFinset] at hx ⊢
          exact hsub hx)
      _ ≤ sib.length := List.toFinset_card_le sib
  rw [hC] at hcard
  simp at hcard

/-- The fueled counter search returns the least free counter `≥ k` whenever
some counter within the budget is free. -/
theorem findFreeCounter_free (sib : List (List Char)) :
    ∀ fuel k, (∃ j, j < fuel ∧ folderNameFor (k + j) ∉ sib) →
      folderNameFor (findFreeCounter sib fuel k) ∉ sib ∧
      k ≤ findFreeCounter sib fuel k ∧
      ∀ j, k ≤ j → j < findFreeCounter sib fuel k → folderNameFor j ∈ sib := by
  intro fuel
  induction fuel with
  | zero =>
    intro k hk
    obtain ⟨j, hj, _⟩ := hk
    omega
  | succ fuel ih =>
    intro k hk
    by_cases hmem : folderNameFor k ∈ sib
    · rw [findFreeCounter, if_pos hmem]
      have hk' : ∃ j, j < fuel ∧ folderNameFor (k + 1 + j) ∉ sib := by
        obtain ⟨j, hj, hfree⟩ := hk
        match j, hj, hfree with
        | 0, _, hfree => exact absurd (by simpa using hmem) (by simpa using hfree)
        | j + 1, hj, hfree =>
          exact ⟨j, by omega, by have : k + 1 + j = k + (j + 1) := by omega
                                 rwa [this]⟩
      obtain ⟨hfree, hle, hmin⟩ := ih (k + 1) hk'
      refine ⟨hfree, by omega, ?_⟩
      intro j hj1 hj2
      rcases Nat.eq_or_lt_of_le hj1 with rfl | hlt
      · exact hmem
      · exact hmin j hlt hj2
    · rw [findFreeCounter, if_neg hmem]
      exact ⟨hmem, le_rfl, by omega⟩

/-- **C8.**  For every folder collection and parent, `generateFolderName`
returns a name no sibling folder (same `parentId`) already bears after
trimming: `"New Folder"` when that is free among the siblings, and otherwise
`"New Folder k"` for the least `k ≥ 2` free among the siblings.  Folders
under a different parent play no role: the name is checked against
`siblingNames parentId` only. -/
theorem generateFolderName_spec :
    ∀ (folders : List Folder) (parentId : Option Ident),
      generateFolderName parentId folders ∉ siblingNames parentId folders ∧
      (baseName ∉ siblingNames parentId folders →
        generateFolderName parentId folders = baseName) ∧
      (baseName ∈ siblingNames parentId folders →
        ∃ k, 2 ≤ k ∧ generateFolderName parentId folders = folderNameFor k ∧
          folderNameFor k ∉ siblingNames parentId folders ∧
          ∀ j, 2 ≤ j → j < k → folderNameFor j ∈ siblingNames parentId folders) := by
  intro folders parentId
  by_cases hmem : baseName ∈ siblingNames parentId folders
  · obtain ⟨m, hm, hfree⟩ := exists_free_counter (siblingNames parentId folders)
    obtain ⟨hfree', hle, hmin⟩ :=
      findFreeCounter_free (siblingNames parentId folders)
        ((siblingNames parentId folders).length + 1) 2 ⟨m, hm, hfree⟩
    have hgen : generateFolderName parentId folders
        = folderNameFor (findFreeCounter (siblingNames parentId folders)
            ((siblingNames parentId folders).length + 1) 2) := by
      rw [generateFolderName]
      simp only [hmem, if_pos]
    refine ⟨by rw [hgen]; exact hfree', fun h => absurd hmem h, fun _ => ?_⟩
    exact ⟨_, hle, hgen, hfree', hmin⟩
  · have hgen : generateFolderName parentId folders = baseName := by
      rw [generateFolderName]
      simp only [hmem, if_neg, if_false]
    exact ⟨by rw [hgen]; exact hmem, fun _ => hgen, fun h => absurd h hmem⟩

/-- **C8 witness**: creating a first folder at root names it `"New Folder"`;
a second creation under the same (root) parent must use the least free
counter, yielding `"New Folder 2"`, while a creation under a different
parent still yields `"New Folder"`. -/
theorem generateFolderName_spec_witness :
    baseName ∈ siblingNames none (createNewFolder ['1'] 0 none []) ∧
    (∃ k, 2 ≤ k ∧
      generateFolderName none (createNewFolder ['1'] 0 none []) = folderNameFor k ∧
      folderNameFor k ∉ siblingNames none (createNewFolder ['1'] 0 none []) ∧
      ∀ j, 2 ≤ j → j < k →
        folderNameFor j ∈ siblingNames none (createNewFolder ['1'] 0 none [])) ∧
    generateFolderName none [] = baseName ∧
    generateFolderName none (createNewFolder ['1'] 0 none [])
      = "New Folder 2".toList ∧
    generateFolderName (some ['7']) (createNewFolder ['1'] 0 none []) = baseName := by
  refine ⟨by decide,
    (generateFolderName_spec (createNewFolder ['1'] 0 none []) none).2.2 (by decide),
    by decide, by decide, by decide⟩

/-! ## C2: `getDescendantFolderIds` -/

/-- One pass of the inner `for` loop: the visited set grows by a
duplicate-free batch `p` of previously unvisited children of `current`, and
exactly that batch is pushed onto the stack. -/
theorem descStep_spec (current : Ident) :
    ∀ (fs : List Folder) (ds st : List Ident), ∃ p : List Ident,
      (descStep current fs (ds, st)).1 = ds ++ p ∧
      (descStep current fs (ds, st)).2 = p.reverse ++ st ∧
      p.Nodup ∧
      (∀ x ∈ p, x ∉ ds ∧ ∃ f, f ∈ fs ∧ f.id = x ∧ f.parentId = some current) := by
  intro fs
  induction fs with
  | nil =>
    intro ds st
    exact ⟨[], by simp [descStep], by simp [descStep], List.nodup_nil, by simp⟩
  | cons f fs ih =>
    intro ds st
    by_cases hg : f.parentId = some current ∧ ¬ f.id ∈ ds
    · have hstep : descStep current (f :: fs) (ds, st)
          = descStep current fs (ds ++ [f.id], f.id :: st) := by
        simp only [descStep, List.foldl_cons, if_pos hg]
      obtain ⟨p', h1, h2, h3, h4⟩ := ih (ds ++ [f.id]) (f.id :: st)
      refine ⟨f.id :: p', ?_, ?_, ?_, ?_⟩
      · rw [hstep, h1]
        simp
      · rw [hstep, h2]
        simp
      · refine List.nodup_cons.mpr ⟨?_, h3⟩
        intro hmem
        exact (h4 f.id hmem).1 (by simp)
      · intro x hx
        rcases List.mem_cons.mp hx with rfl | hx'
        · exact ⟨hg.2, f, List.mem_cons_self f fs, rfl, hg.1⟩
        · obtain ⟨hnd, g, hgfs, hgid, hgpar⟩ := h4 x hx'
          exact ⟨fun h => hnd (by simp [h]), g, List.mem_cons_of_mem f hgfs, hgid, hgpar⟩
    · have hstep : descStep current (f :: fs) (ds, st)
          = descStep current fs (ds, st) := by
        simp only [descStep, List.foldl_cons, if_neg hg]
      obtain ⟨p', h1, h2, h3, h4⟩ := ih ds st
      refine ⟨p', by rw [hstep, h1], by rw [hstep, h2], h3, ?_⟩
      intro x hx
      obtain ⟨hnd, g, hgfs, hgid, hgpar⟩ := h4 x hx
      exact ⟨hnd, g, List.mem_cons_of_mem f hgfs, hgid, hgpar⟩

/-- The visited set only grows across one `for` pass. -/
theorem descStep_mono (current : Ident) (fs : List Folder) (ds st : List Ident)
    {x : Ident} (hx : x ∈ ds) : x ∈ (descStep current fs (ds, st)).1 := by
  obtain ⟨p, h1, -, -, -⟩ := descStep_spec current fs ds st
  rw [h1]
  exact List.mem_append_left p hx

/-- After one `for` pass for `current`, every child of `current` is
visited. -/
theorem descStep_adds (current : Ident) :
    ∀ (fs : List Folder) (ds st : List Ident), ∀ f ∈ fs,
      f.parentId = some current → f.id ∈ (descStep current fs (ds, st)).1 := by
  intro fs
  induction fs with
  | nil => intro ds st f hf; exact absurd hf (List.not_mem_nil f)
  | cons g fs ih =>
    intro ds st f hf hpar
    rcases List.mem_cons.mp hf with rfl | hf'
    · by_cases hg : f.parentId = some current ∧ ¬ f.id ∈ ds
      · have hstep : descStep current (f :: fs) (ds, st)
            = descStep current fs (ds ++ [f.id], f.id :: st) := by
          simp only [descStep, List.foldl_cons, if_pos hg]
        rw [hstep]
        exact descStep_mono current fs _ _ (by simp)
      · have hid : f.id ∈ ds := by
          by_contra hnot
          exact hg ⟨hpar, hnot⟩
        have hstep : descStep current (f :: fs) (ds, st)
            = descStep current fs (ds, st) := by
          simp only [descStep, List.foldl_cons, if_neg hg]
        rw [hstep]
        exact descStep_mono current fs _ _ hid
    · by_cases hg : g.parentId = some current ∧ ¬ g.id ∈ ds
      · have hstep : descStep current (g :: fs) (ds, st)
            = descStep current fs (ds ++ [g.id], g.id :: st) := by
          simp only [descStep, List.foldl_cons, if_pos hg]
        rw [hstep]
        exact ih _ _ f hf' hpar
      · have hstep : descStep current (g :: fs) (ds, st)
            = descStep current fs (ds, st) := by
          simp only [descStep, List.foldl_cons, if_neg hg]
        rw [hstep]
        exact ih _ _ f hf' hpar

/-- Filtering with a pointwise-stronger predicate yields at most as many
elements. -/
theorem length_filter_mono {α : Type} (L : List α) (p q : α → Bool)
    (h : ∀ x, p x = true → q x = true) :
    (L.filter p).length ≤ (L.filter q).length := by
  induction L with
  | nil => simp
  | cons y L ih =>
    by_cases hp : p y = true
    · rw [List.filter_cons_of_pos hp, List.filter_cons_of_pos (h y hp)]
      simpa using ih
    · rw [List.filter_cons_of_neg (by simpa using hp)]
      by_cases hq : q y = true
      · rw [List.filter_cons_of_pos hq]
        exact le_trans ih (by simp)
      · rw [List.filter_cons_of_neg (by simpa using hq)]
        exact ih

/-- Marking one present, unvisited id strictly shrinks the unvisited
count. -/
theorem length_filter_visit {L ds : List Ident} {x : Ident}
    (hxL : x ∈ L) (hxds : x ∉ ds) :
    (L.filter (fun i => ¬ i ∈ ds ++ [x])).length
      < (L.filter (fun i => ¬ i ∈ ds)).length := by
  induction L with
  | nil => exact absurd hxL (List.not_mem_nil x)
  | cons y L ih =>
    by_cases hyx : y = x
    · subst hyx
      rw [List.filter_cons_of_neg (by simp), List.filter_cons_of_pos (by simpa using hxds)]
      have hmono := length_filter_mono L (fun i => ¬ i ∈ ds ++ [y]) (fun i => ¬ i ∈ ds)
        (fun i hi => by
          simp only [decide_eq_true_eq, List.mem_append] at hi ⊢
          exact fun hds => hi (Or.inl hds))
      simp only [List.length_cons]
      omega
    · rcases List.mem_cons.mp hxL with rfl | hxL'
      · exact absurd rfl hyx
      · have hiff : (y ∈ ds ++ [x]) ↔ (y ∈ ds) := by
          simp only [List.mem_append, List.mem_singleton]
          exact ⟨fun h => h.elim id (fun h => absurd h hyx), Or.inl⟩
        by_cases hy : y ∈ ds
        · rw [List.filter_cons_of_neg (by
              simp only [decide_eq_true_eq, not_not]
              exact hiff.mpr hy),
            List.filter_cons_of_neg (by
              simp only [decide_eq_true_eq, not_not]
              exact hy)]
          exact ih hxL'
        · rw [List.filter_cons_of_pos (by
              simp only [decide_eq_true_eq]
              exact fun h => hy (hiff.mp h)),
            List.filter_cons_of_pos (by
              simp only [decide_eq_true_eq]
              exact hy)]
          simpa using ih hxL'

/-- Visiting a duplicate-free batch `p` of present, unvisited ids shrinks
the unvisited count by at least `p.length`. -/
theorem length_filter_batch (L : List Ident) :
    ∀ (p ds : List Ident), p.Nodup → (∀ x ∈ p, x ∈ L ∧ x ∉ ds) →
      (L.filter (fun i => ¬ i ∈ ds ++ p)).length + p.length
        ≤ (L.filter (fun i => ¬ i ∈ ds)).length := by
  intro p
  induction p with
  | nil =>
    intro ds _ _
    simp
  | cons x p ih =>
    intro ds hnodup hcond
    rw [List.nodup_cons] at hnodup
    have hx := hcond x (List.mem_cons_self x p)
    have step1 : (L.filter (fun i => ¬ i ∈ (ds ++ [x]) ++ p)).length + p.length
        ≤ (L.filter (fun i => ¬ i ∈ ds ++ [x])).length := by
      refine ih (ds ++ [x]) hnodup.2 ?_
      intro y hy
      have hyy := hcond y (List.mem_cons_of_mem x hy)
      refine ⟨hyy.1, ?_⟩
      simp only [List.mem_append, List.mem_singleton]
      rintro (h | rfl)
      · exact hyy.2 h
      · exact hnodup.1 hy
    have step2 : (L.filter (fun i => ¬ i ∈ ds ++ [x])).length
        < (L.filter (fun i => ¬ i ∈ ds)).length :=
      length_filter_visit hx.1 hx.2
    have heq : (L.filter (fun i => ¬ i ∈ (ds ++ [x]) ++ p))
        = (L.filter (fun i => ¬ i ∈ ds ++ x :: p)) := by
      refine List.filter_congr ?_
      intro y _
      simp only [decide_eq_decide, List.append_assoc, List.singleton_append]
    rw [heq] at step1
    simp only [List.length_cons]
    omega

/-- The main loop invariant: with enough fuel (`unvisited + stack size`),
`descLoopF` returns a duplicate-free superset of `ds` containing only ids
reachable from `root`, and closed under child edges. -/
theorem descLoopF_run (fs : List Folder) (root : Ident) :
    ∀ (fuel : Nat) (ds st : List Ident),
      ((fs.map Folder.id).filter (fun i => ¬ i ∈ ds)).length + st.length ≤ fuel →
      ds.Nodup →
      (∀ x ∈ ds, Reaches fs root x) →
      (∀ c ∈ st, c ∈ ds) →
      (∀ f ∈ fs, ∀ q, f.parentId = some q → q ∈ ds → q ∈ st ∨ f.id ∈ ds) →
      (descLoopF fs fuel ds st).Nodup ∧
      (∀ x ∈ ds, x ∈ descLoopF fs fuel ds st) ∧
      (∀ x ∈ descLoopF fs fuel ds st, Reaches fs root x) ∧
      (∀ f ∈ fs, ∀ q, f.parentId = some q → q ∈ descLoopF fs fuel ds st →
        f.id ∈ descLoopF fs fuel ds st) := by
  intro fuel
  induction fuel with
  | zero =>
    intro ds st hfuel hnd hsound hstack hinv
    have hst : st = [] := List.eq_nil_of_length_eq_zero (by omega)
    subst hst
    refine ⟨hnd, fun x hx => hx, hsound, ?_⟩
    intro f hf q hq hqds
    rcases hinv f hf q hq hqds with h | h
    · exact absurd h (List.not_mem_nil q)
    · exact h
  | succ fuel ih =>
    intro ds st hfuel hnd hsound hstack hinv
    match st with
    | [] =>
      refine ⟨hnd, fun x hx => hx, hsound, ?_⟩
      intro f hf q hq hqds
      rcases hinv f hf q hq hqds with h | h
      · exact absurd h (List.not_mem_nil q)
      · exact h
    | current :: rest =>
      obtain ⟨p, hp1, hp2, hp3, hp4⟩ := descStep_spec current fs ds rest
      have hrun : descLoopF fs (fuel + 1) ds (current :: rest)
          = descLoopF fs fuel (ds ++ p) (p.reverse ++ rest) := by
        rw [descLoopF, hp1, hp2]
      have hbatch : ((fs.map Folder.id).filter (fun i => ¬ i ∈ ds ++ p)).length + p.length
          ≤ ((fs.map Folder.id).filter (fun i => ¬ i ∈ ds)).length := by
        refine length_filter_batch (fs.map Folder.id) p ds hp3 ?_
        intro x hx
        obtain ⟨hnds, f, hffs, hfid, _⟩ := hp4 x hx
        exact ⟨List.mem_map.mpr ⟨f, hffs, hfid⟩, hnds⟩
      have hcur : current ∈ ds := hstack current (List.mem_cons_self current rest)
      have hfuel' : ((fs.map Folder.id).filter (fun i => ¬ i ∈ ds ++ p)).length
          + (p.reverse ++ rest).length ≤ fuel := by
        have : (p.reverse ++ rest).length = p.length + rest.length := by simp
        simp only [List.length_cons] at hfuel
        omega
      have hnd' : (ds ++ p).Nodup := by
        refine List.Nodup.append hnd hp3 ?_
        intro a ha hap
        exact (hp4 a hap).1 ha
      have hsound' : ∀ x ∈ ds ++ p, Reaches fs root x := by
        intro x hx
        rcases List.mem_append.mp hx with hxd | hxp
        · exact hsound x hxd
        · obtain ⟨-, f, hffs, hfid, hfpar⟩ := hp4 x hxp
          rw [← hfid]
          exact Reaches.step (hsound current hcur) hffs hfpar
      have hstack' : ∀ c ∈ p.reverse ++ rest, c ∈ ds ++ p := by
        intro c hc
        rcases List.mem_append.mp hc with hcp | hcr
        · exact List.mem_append_right ds (List.mem_reverse.mp hcp)
        · exact List.mem_append_left p (hstack c (List.mem_cons_of_mem current hcr))
      have hinv' : ∀ f ∈ fs, ∀ q, f.parentId = some q → q ∈ ds ++ p →
          q ∈ p.reverse ++ rest ∨ f.id ∈ ds ++ p := by
        intro f hf q hq hqmem
        rcases List.mem_append.mp hqmem with hqds | hqp
        · rcases hinv f hf q hq hqds with hqst | hfid
          · rcases List.mem_cons.mp hqst with rfl | hqrest
            · right
              have := descStep_adds q fs ds rest f hf hq
              rwa [hp1] at this
            · exact Or.inl (List.mem_append_right p.reverse hqrest)
          · exact Or.inr (List.mem_append_left p hfid)
        · exact Or.inl (List.mem_append_left rest (List.mem_reverse.mpr hqp))
      obtain ⟨c1, c2, c3, c4⟩ := ih (ds ++ p) (p.reverse ++ rest) hfuel' hnd' hsound' hstack' hinv'
      rw [hrun]
      exact ⟨c1, fun x hx => c2 x (List.mem_append_left p hx), c3, c4⟩

/-- **C2.**  For every folder collection — including malformed input whose
`parentId` graph contains a cycle — and every starting id,
`getDescendantFolderIds` terminates with each folder id visited and pushed
at most once (the result is duplicate-free, and the explicit iteration
budget `allFolders.length + 1`, justified by the visited-set guard, is never
exhausted), and it returns exactly the set containing `folderId` together
with every folder id reachable from it along child edges (`Reaches`). -/
theorem getDescendantFolderIds_spec :
    ∀ (allFolders : List Folder) (folderId : Ident),
      (getDescendantFolderIds folderId allFolders).Nodup ∧
      ∀ x, x ∈ getDescendantFolderIds folderId allFolders
        ↔ Reaches allFolders folderId x := by
  intro fs root
  have hfuel : ((fs.map Folder.id).filter (fun i => ¬ i ∈ [root])).length
      + ([root] : List Ident).length ≤ fs.length + 1 := by
    have h1 := List.length_filter_le (fun i => ¬ i ∈ [root]) (fs.map Folder.id)
    simp only [List.length_map] at h1
    simp only [List.length_singleton]
    omega
  obtain ⟨c1, c2, c3, c4⟩ := descLoopF_run fs root (fs.length + 1) [root] [root] hfuel
    (List.nodup_singleton root)
    (fun x hx => by
      rcases List.mem_singleton.mp hx with rfl
      exact Reaches.refl)
    (fun c hc => hc)
    (fun f _ q _ hq => Or.inl hq)
  refine ⟨c1, fun x => ⟨c3 x, ?_⟩⟩
  intro hreach
  induction hreach with
  | refl => exact c2 root (List.mem_singleton.mpr rfl)
  | step hp hffs hfpar ih => exact c4 _ hffs _ hfpar ih

/-! ## C1: `deleteFolder` -/

/-- **C1, counterexample.**  The claim quantifies over *every* note
collection and asserts that exactly the notes whose `folderId` lies in the
descendant closure are removed, every other note remaining.  But
`deleteFolder` computes the remaining notes by matching *ids* against the
doomed notes (`!notesToDelete.some(d => d.id === note.id)`), so with two
notes sharing the id `"x"` — one under the deleted folder `A`, one at root —
the root note is removed as well, although its `folderId` is outside the
closure. -/
theorem deleteFolder_dup_id_counterexample :
    ¬ ((deleteFolder true ("A".toList) dupIdState).notes
        = dupIdState.notes.filter
            (fun n => match n.folderId with
              | some g => ! (getDescendantFolderIds ("A".toList) dupIdState.folders).contains g
              | none => true)) := by
  decide

/-- **C1, amended.**  For every state whose note ids are pairwise distinct
and every folder id `fid`, `deleteFolder fid` removes from the in-memory
state — regardless of the folder-index write outcome — exactly the notes
whose `folderId` is non-null, non-empty and lies in the descendant closure
of `fid` (JS truthiness: a note with `folderId === ""` is treated as a root
note and never removed), every other note being kept.  The in-memory folder
collection loses exactly the folders whose id lies in the closure when the
`saveFolders` write succeeds, and is left unchanged when that write fails
(the error is only logged, after the notes were already removed).  In both
outcomes: if the open note was among the deleted notes, the open-note UI
state is cleared; if the currently selected folder (non-empty id) was in
the closure, the folder selection is reset to root, and a selection outside
the closure is kept. -/
theorem deleteFolder_spec (st : AppState) (fid : Ident)
    (hnodup : (st.notes.map Note.id).Nodup) :
    (deleteFolder true fid st).folders
      = st.folders.filter
          (fun f => ¬ f.id ∈ getDescendantFolderIds fid st.folders) ∧
    (deleteFolder false fid st).folders = st.folders ∧
    (∀ ok, (deleteFolder ok fid st).notes
      = st.notes.filter
          (fun n => ! noteInDeletedSubtree (getDescendantFolderIds fid st.folders) n)) ∧
    (∀ ok cn, st.currentNote = some cn → cn ∈ st.notes →
      noteInDeletedSubtree (getDescendantFolderIds fid st.folders) cn = true →
      (deleteFolder ok fid st).currentNote = none ∧
      (deleteFolder ok fid st).noteTitle = [] ∧
      (deleteFolder ok fid st).noteContent = []) ∧
    (∀ ok c, st.currentFolderId = some c → c ≠ [] →
      c ∈ getDescendantFolderIds fid st.folders →
      (deleteFolder ok fid st).currentFolderId = none) ∧
    (∀ ok c, st.currentFolderId = some c →
      ¬ c ∈ getDescendantFolderIds fid st.folders →
      (deleteFolder ok fid st).currentFolderId = some c) := by
  have hpt : ∀ n ∈ st.notes,
      ((st.notes.filter
          (noteInDeletedSubtree (getDescendantFolderIds fid st.folders))).any
        (fun d => d.id == n.id))
        = noteInDeletedSubtree (getDescendantFolderIds fid st.folders) n := by
    intro n hn
    rw [Bool.eq_iff_iff, List.any_eq_true]
    constructor
    · rintro ⟨d, hd, hid⟩
      rw [List.mem_filter] at hd
      have hdn : d = n := List.inj_on_of_nodup_map hnodup hd.1 hn (beq_iff_eq.mp hid)
      rw [← hdn]
      exact hd.2
    · intro hpred
      exact ⟨n, List.mem_filter.mpr ⟨hn, hpred⟩, beq_iff_eq.mpr rfl⟩
  refine ⟨?_, ?_, ?_, ?_, ?_, ?_⟩
  · have hdf : (deleteFolder true fid st).folders
        = st.folders.filter
            (fun f => ! (getDescendantFolderIds fid st.folders).contains f.id) := rfl
    rw [hdf]
    refine List.filter_congr ?_
    intro f _
    by_cases h : f.id ∈ getDescendantFolderIds fid st.folders
    · have hc : (getDescendantFolderIds fid st.folders).contains f.id = true :=
        List.elem_iff.mpr h
      rw [hc]
      simp [h]
    · have hc : (getDescendantFolderIds fid st.folders).contains f.id = false :=
        Bool.eq_false_iff.mpr (fun hc => h (List.elem_iff.mp hc))
      rw [hc]
      simp [h]
  · rfl
  · intro ok
    have hdf : (deleteFolder ok fid st).notes
        = st.notes.filter (fun n =>
            ! ((st.notes.filter
                (noteInDeletedSubtree (getDescendantFolderIds fid st.folders))).any
              (fun d => d.id == n.id))) := rfl
    rw [hdf]
    refine List.filter_congr ?_
    intro n hn
    rw [hpt n hn]
  · intro ok cn hcn hmem hpred
    have hany : ((st.notes.filter
        (noteInDeletedSubtree (getDescendantFolderIds fid st.folders))).any
          (fun d => d.id == cn.id)) = true := by
      rw [hpt cn hmem]
      exact hpred
    refine ⟨?_, ?_, ?_⟩ <;> simp [deleteFolder, hcn, hany]
  · intro ok c hc hne hcmem
    have hcon : (getDescendantFolderIds fid st.folders).contains c = true :=
      List.elem_iff.mpr hcmem
    have hbeq : (c == ([] : Ident)) = false :=
      Bool.eq_false_iff.mpr (fun hb => hne (beq_iff_eq.mp hb))
    simp [deleteFolder, hc, hcon, hbeq, hcmem]
  · intro ok c hc hcmem
    have hcon : (getDescendantFolderIds fid st.folders).contains c = false :=
      Bool.eq_false_iff.mpr (fun hb => hcmem (List.elem_iff.mp hb))
    simp [deleteFolder, hc, hcon, hcmem]

/-- **C1 witness**: the spec's cascading scenario.  Deleting `A` from
`scenarioState` (`A -> B -> C` with a note each, sibling `D` with a note,
folder view on `C`) removes all three folders and their notes on a
successful index write, keeps `D` and its note, resets the folder selection
to root, and — when the index write fails — still removes the notes while
leaving the folder collection untouched. -/
theorem deleteFolder_spec_witness :
    (scenarioState.notes.map Note.id).Nodup ∧
    (deleteFolder true ("A".toList) scenarioState).folders
      = [⟨"D".toList, "D".toList, none, 3⟩] ∧
    (deleteFolder false ("A".toList) scenarioState).folders
      = scenarioState.folders ∧
    (deleteFolder false ("A".toList) scenarioState).notes
      = [⟨"nd".toList, [], [], 3, some ("D".toList)⟩] ∧
    (deleteFolder true ("A".toList) scenarioState).currentFolderId = none := by
  have h := deleteFolder_spec scenarioState ("A".toList) (by decide)
  refine ⟨by decide, h.1.trans (by decide), h.2.1, (h.2.2.1 false).trans (by decide), ?_⟩
  exact h.2.2.2.2.1 true ("C".toList) rfl (by decide) (by decide)

/-! ## Line-structure lemmas for `prefixLines` -/

theorem lastNLsearch_spec (v : List Char) :
    ∀ k j, lastNLsearch v k = some j →
      j ≤ k ∧ j < v.length ∧ v.getD j ' ' = '\n' := by
  intro k
  induction k with
  | zero =>
    intro j hj
    rw [lastNLsearch] at hj
    by_cases h : 0 < v.length ∧ v.getD 0 ' ' = '\n'
    · rw [if_pos h] at hj
      cases hj
      exact ⟨le_rfl, h.1, h.2⟩
    · rw [if_neg h] at hj
      cases hj
  | succ k ih =>
    intro j hj
    rw [lastNLsearch] at hj
    by_cases h : k + 1 < v.length ∧ v.getD (k + 1) ' ' = '\n'
    · rw [if_pos h] at hj
      cases hj
      exact ⟨le_rfl, h.1, h.2⟩
    · rw [if_neg h] at hj
      obtain ⟨h1, h2, h3⟩ := ih j hj
      exact ⟨Nat.le_succ_of_le h1, h2, h3⟩

theorem lastNLsearch_hit (v : List Char) (k : Nat)
    (hk : k < v.length) (hc : v.getD k ' ' = '\n') :
    lastNLsearch v k = some k := by
  cases k with
  | zero => rw [lastNLsearch, if_pos ⟨hk, hc⟩]
  | succ k => rw [lastNLsearch, if_pos ⟨hk, hc⟩]

theorem lineStartOf_le {v : List Char} {s e : Nat} (h : s < e) :
    lineStartOf v s ≤ e := by
  rcases hcase : lastNLUpTo v ((s : Int) - 1) with - | j
  · simp only [lineStartOf, hcase]
    omega
  · simp only [lineStartOf, hcase]
    rw [lastNLUpTo] at hcase
    have hj := (lastNLsearch_spec v _ j hcase).1
    have htn : ((max ((s : Int) - 1) 0).toNat) = s - 1 := by omega
    omega

theorem lineStartOf_le_length (v : List Char) (s : Nat) :
    lineStartOf v s ≤ v.length := by
  rcases hcase : lastNLUpTo v ((s : Int) - 1) with - | j
  · simp only [lineStartOf, hcase]
    omega
  · simp only [lineStartOf, hcase]
    rw [lastNLUpTo] at hcase
    have hj := (lastNLsearch_spec v _ j hcase).2.1
    omega

/-- When the computed line start is positive, the character just before it
is a newline. -/
theorem lineStartOf_newline {v : List Char} {s : Nat}
    (h : 0 < lineStartOf v s) :
    lineStartOf v s - 1 < v.length ∧ v.getD (lineStartOf v s - 1) ' ' = '\n' := by
  rcases hcase : lastNLUpTo v ((s : Int) - 1) with - | j
  · simp only [lineStartOf, hcase] at h
    omega
  · simp only [lineStartOf, hcase, Nat.add_sub_cancel]
    rw [lastNLUpTo] at hcase
    have hs := lastNLsearch_spec v _ j hcase
    exact ⟨hs.2.1, hs.2.2⟩

theorem firstNLIn_spec (l : List Char) :
    ∀ k, firstNLIn l = some k → k < l.length ∧ l.drop k = '\n' :: l.drop (k + 1) := by
  induction l with
  | nil => intro k hk; cases hk
  | cons c rest ih =>
    intro k hk
    rw [firstNLIn] at hk
    by_cases hc : c = '\n'
    · rw [if_pos hc] at hk
      cases hk
      subst hc
      exact ⟨Nat.succ_pos _, rfl⟩
    · rw [if_neg hc] at hk
      rcases hmap : firstNLIn rest with - | k'
      · rw [hmap] at hk
        cases hk
      · rw [hmap] at hk
        cases hk
        obtain ⟨h1, h2⟩ := ih k' hmap
        exact ⟨by simpa using h1, by simpa using h2⟩

theorem lineEndOf_ge {v : List Char} {e : Nat} (h : e ≤ v.length) :
    e ≤ lineEndOf v e := by
  rcases hcase : firstNLFrom v e with - | j
  · simp only [lineEndOf, hcase]
    exact h
  · simp only [lineEndOf, hcase]
    rw [firstNLFrom] at hcase
    rcases hin : firstNLIn (v.drop e) with - | k
    · rw [hin] at hcase
      cases hcase
    · rw [hin] at hcase
      simp only [Option.map_some', Option.some.injEq] at hcase
      omega

theorem lineEndOf_le (v : List Char) (e : Nat) : lineEndOf v e ≤ v.length := by
  rcases hcase : firstNLFrom v e with - | j
  · simp only [lineEndOf, hcase]
    exact le_rfl
  · simp only [lineEndOf, hcase]
    rw [firstNLFrom] at hcase
    rcases hin : firstNLIn (v.drop e) with - | k
    · rw [hin] at hcase
      cases hcase
    · rw [hin] at hcase
      simp only [Option.map_some', Option.some.injEq] at hcase
      have hlen := (firstNLIn_spec (v.drop e) k hin).1
      rw [List.length_drop] at hlen
      omega

/-- The tail of the buffer from the computed line end: either the line end
is the buffer end, or it starts with the found newline. -/
theorem lineEndOf_drop (v : List Char) (e : Nat) :
    (lineEndOf v e = v.length ∧ firstNLIn (v.drop (lineEndOf v e)) = none) ∨
    (∃ t, v.drop (lineEndOf v e) = '\n' :: t) := by
  rcases hcase : firstNLFrom v e with - | j
  · left
    have h1 : lineEndOf v e = v.length := by simp only [lineEndOf, hcase]
    refine ⟨h1, ?_⟩
    rw [h1, List.drop_length]
    rfl
  · right
    simp only [lineEndOf, hcase]
    rw [firstNLFrom] at hcase
    rcases hin : firstNLIn (v.drop e) with - | k
    · rw [hin] at hcase
      cases hcase
    · rw [hin] at hcase
      simp only [Option.map_some', Option.some.injEq] at hcase
      obtain ⟨-, h2⟩ := firstNLIn_spec (v.drop e) k hin
      refine ⟨(v.drop e).drop (k + 1), ?_⟩
      rw [← hcase, ← List.drop_drop]
      exact h2

theorem splitOnNL_ne_nil (v : List Char) : splitOnNL v ≠ [] := by
  cases v with
  | nil => simp [splitOnNL]
  | cons c rest =>
    rw [splitOnNL]
    rcases splitOnNL rest with - | ⟨l, ls⟩
    · simp
    · by_cases hc : c = '\n' <;> simp [hc]

theorem splitOnNL_of_no_newline {l : List Char} (h : '\n' ∉ l) :
    splitOnNL l = [l] := by
  induction l with
  | nil => rfl
  | cons c rest ih =>
    have hc : ¬ c = '\n' := fun hc => h (by simp [hc])
    have hrest : '\n' ∉ rest := fun hr => h (List.mem_cons_of_mem c hr)
    rw [splitOnNL, ih hrest]
    simp only [if_neg hc]

theorem splitOnNL_append_newline {l : List Char} (t : List Char) (h : '\n' ∉ l) :
    splitOnNL (l ++ '\n' :: t) = l :: splitOnNL t := by
  induction l with
  | nil =>
    rw [List.nil_append, splitOnNL]
    rcases hsp : splitOnNL t with - | ⟨l0, ls⟩
    · exact absurd hsp (splitOnNL_ne_nil t)
    · simp
  | cons c rest ih =>
    have hc : ¬ c = '\n' := fun hc => h (by simp [hc])
    have hrest : '\n' ∉ rest := fun hr => h (List.mem_cons_of_mem c hr)
    rw [List.cons_append, splitOnNL, ih hrest]
    simp only [if_neg hc]

theorem splitOnNL_joinNL :
    ∀ ls : List (List Char), ls ≠ [] → (∀ l ∈ ls, '\n' ∉ l) →
      splitOnNL (joinNL ls) = ls := by
  intro ls
  induction ls with
  | nil => intro h; exact absurd rfl h
  | cons l ls ih =>
    intro _ hno
    rcases ls with - | ⟨l', ls'⟩
    · rw [joinNL]
      exact splitOnNL_of_no_newline (hno l (List.mem_cons_self l []))
    · rw [joinNL, splitOnNL_append_newline _ (hno l (List.mem_cons_self l _))]
      rw [ih (by simp) (fun x hx => hno x (List.mem_cons_of_mem l hx))]

theorem joinNL_ne_nil {l : List Char} {ls : List (List Char)} (h : l ≠ []) :
    joinNL (l :: ls) ≠ [] := by
  rcases ls with - | ⟨l', ls'⟩
  · rw [joinNL]
    exact h
  · rw [joinNL]
    simp

theorem joinNL_getD_zero {l : List Char} (ls : List (List Char)) (h : l ≠ []) :
    (joinNL (l :: ls)).getD 0 ' ' = l.getD 0 ' ' := by
  rcases ls with - | ⟨l', ls'⟩
  · rfl
  · rw [joinNL]
    exact List.getD_append l _ ' ' 0 (List.length_pos.mpr h)

theorem length_mapLinesIdx (g : Nat → List Char → List Char) :
    ∀ (i : Nat) (ls : List (List Char)), (mapLinesIdx g i ls).length = ls.length := by
  intro i ls
  induction ls generalizing i with
  | nil => rfl
  | cons l ls ih => simp [mapLinesIdx, ih]

theorem get_mapLinesIdx (g : Nat → List Char → List Char) :
    ∀ (ls : List (List Char)) (i k : Nat) (hk : k < ls.length),
      (mapLinesIdx g i ls).get ⟨k, by rw [length_mapLinesIdx]; exact hk⟩
        = g (i + k) (ls.get ⟨k, hk⟩) := by
  intro ls
  induction ls with
  | nil => intro i k hk; exact absurd hk (by simp)
  | cons l ls ih =>
    intro i k hk
    cases k with
    | zero => rfl
    | succ k =>
      have hk' : k < ls.length := by simpa using hk
      have := ih (i + 1) k hk'
      simp only [mapLinesIdx, List.get_cons_succ]
      rw [this]
      congr 1
      omega

theorem mem_mapLinesIdx (g : Nat → List Char → List Char) :
    ∀ (ls : List (List Char)) (i : Nat) (x : List Char),
      x ∈ mapLinesIdx g i ls →
      ∃ k, ∃ hk : k < ls.length, x = g (i + k) (ls.get ⟨k, hk⟩) := by
  intro ls
  induction ls with
  | nil => intro i x hx; exact absurd hx (by simp [mapLinesIdx])
  | cons l ls ih =>
    intro i x hx
    rw [mapLinesIdx] at hx
    rcases List.mem_cons.mp hx with rfl | hx'
    · exact ⟨0, by simp, by simp⟩
    · obtain ⟨k, hk, hxk⟩ := ih (i + 1) x hx'
      refine ⟨k + 1, by simpa using hk, ?_⟩
      rw [hxk]
      congr 1
      omega

theorem mapLinesIdx_comp (g g' : Nat → List Char → List Char) :
    ∀ (ls : List (List Char)) (i : Nat),
      mapLinesIdx g i (mapLinesIdx g' i ls)
        = mapLinesIdx (fun j l => g j (g' j l)) i ls := by
  intro ls
  induction ls with
  | nil => intro i; rfl
  | cons l ls ih =>
    intro i
    simp only [mapLinesIdx]
    rw [ih (i + 1)]

theorem mapLinesIdx_congr (g g' : Nat → List Char → List Char) :
    ∀ (ls : List (List Char)) (i : Nat),
      (∀ k, ∀ hk : k < ls.length, g (i + k) (ls.get ⟨k, hk⟩) = g' (i + k) (ls.get ⟨k, hk⟩)) →
      mapLinesIdx g i ls = mapLinesIdx g' i ls := by
  intro ls
  induction ls with
  | nil => intro i _; rfl
  | cons l ls ih =>
    intro i h
    simp only [mapLinesIdx]
    congr 1
    · simpa using h 0 (by simp)
    · refine ih (i + 1) ?_
      intro k hk
      have hk1 := h (k + 1) (by simpa using hk)
      simp only [List.get_cons_succ] at hk1
      have harith : i + (k + 1) = i + 1 + k := by omega
      rwa [harith] at hk1

theorem jsSlice_length {v : List Char} {a b : Nat} (h1 : a ≤ b) (h2 : b ≤ v.length) :
    (jsSlice v a b).length = b - a := by
  rw [jsSlice, List.length_take, List.length_drop]
  omega

theorem jsSlice_decompose {v : List Char} {a b : Nat} (h1 : a ≤ b) (h2 : b ≤ v.length) :
    v = v.take a ++ jsSlice v a b ++ v.drop b := by
  rw [jsSlice]
  have htake : v.take (a + (b - a)) = v.take a ++ (v.drop a).take (b - a) :=
    List.take_add v a (b - a)
  have hb : a + (b - a) = b := by omega
  rw [hb] at htake
  rw [← htake, List.take_append_drop]

/-- Unfolding of the block branch of `prefixLines` (`start ≠ end`). -/
theorem prefixLinesT_block (pre ph : List Char) (tl : Option (List Char → Nat → List Char))
    (v : List Char) (s e : Nat) (hne : ¬ s = e) :
    prefixLinesT pre ph tl v ⟨s, e⟩
      = ⟨v.take (lineStartOf v s)
          ++ joinNL (mapLinesIdx (gLine pre tl) 0
              (splitOnNL (jsSlice v (lineStartOf v s) (lineEndOf v e))))
          ++ v.drop (lineEndOf v e),
        lineStartOf v s,
        lineStartOf v s
          + (joinNL (mapLinesIdx (gLine pre tl) 0
              (splitOnNL (jsSlice v (lineStartOf v s) (lineEndOf v e))))).length⟩ := by
  simp only [prefixLinesT, if_neg hne]

/-! ## C7: totality and the `TransformationResult` invariant -/

/-- **C7.**  Every toolbar transformer is total (each is a total Lean
function on arbitrary buffers and selections, including the empty buffer,
an empty selection, and selections at the buffer boundaries), and for every
input selection with `0 ≤ start ≤ end ≤ length(buffer)` its output satisfies
the `TransformationResult` invariant
`0 ≤ selectionStart ≤ selectionEnd ≤ length(value)`:  `wrapSelection` in
both `collapseToEnd` modes and with arbitrary prefix/suffix/placeholder,
`prefixLines` with arbitrary prefix/placeholder/`transformLine` (covering
the caret and the block case, hence headings, blockquote, bullet list,
ordered list and checklist), the horizontal rule, the link and the image
transformer. -/
theorem toolbar_total_invariant :
    (∀ (pre suf ph : List Char) (collapse : Bool) (v : List Char) (s e : Nat),
      s ≤ e → e ≤ v.length →
      (wrapSelectionT pre suf ph collapse v ⟨s, e⟩).selectionStart
          ≤ (wrapSelectionT pre suf ph collapse v ⟨s, e⟩).selectionEnd ∧
      (wrapSelectionT pre suf ph collapse v ⟨s, e⟩).selectionEnd
          ≤ (wrapSelectionT pre suf ph collapse v ⟨s, e⟩).value.length) ∧
    (∀ (pre ph : List Char) (tl : Option (List Char → Nat → List Char))
        (v : List Char) (s e : Nat),
      s ≤ e → e ≤ v.length →
      (prefixLinesT pre ph tl v ⟨s, e⟩).selectionStart
          ≤ (prefixLinesT pre ph tl v ⟨s, e⟩).selectionEnd ∧
      (prefixLinesT pre ph tl v ⟨s, e⟩).selectionEnd
          ≤ (prefixLinesT pre ph tl v ⟨s, e⟩).value.length) ∧
    (∀ (v : List Char) (s e : Nat), s ≤ e → e ≤ v.length →
      (insertHorizontalRuleT v ⟨s, e⟩).selectionStart
          ≤ (insertHorizontalRuleT v ⟨s, e⟩).selectionEnd ∧
      (insertHorizontalRuleT v ⟨s, e⟩).selectionEnd
          ≤ (insertHorizontalRuleT v ⟨s, e⟩).value.length) ∧
    (∀ (v : List Char) (s e : Nat), s ≤ e → e ≤ v.length →
      (insertLinkT v ⟨s, e⟩).selectionStart
          ≤ (insertLinkT v ⟨s, e⟩).selectionEnd ∧
      (insertLinkT v ⟨s, e⟩).selectionEnd
          ≤ (insertLinkT v ⟨s, e⟩).value.length) ∧
    (∀ (v : List Char) (s e : Nat), s ≤ e → e ≤ v.length →
      (insertImageT v ⟨s, e⟩).selectionStart
          ≤ (insertImageT v ⟨s, e⟩).selectionEnd ∧
      (insertImageT v ⟨s, e⟩).selectionEnd
          ≤ (insertImageT v ⟨s, e⟩).value.length) := by
  refine ⟨?_, ?_, ?_, ?_, ?_⟩
  · intro pre suf ph collapse v s e h1 h2
    have hs : s ≤ v.length := le_trans h1 h2
    have htk : (v.take s).length = s := by rw [List.length_take]; omega
    cases collapse with
    | false =>
      simp only [wrapSelectionT, Bool.false_eq_true, if_false, List.length_append,
        List.length_drop, htk]
      omega
    | true =>
      simp only [wrapSelectionT, if_true, List.length_append, List.length_drop, htk]
      omega
  · intro pre ph tl v s e h1 h2
    by_cases hse : s = e
    · subst hse
      have hs : s ≤ v.length := h2
      have htk : (v.take s).length = s := by rw [List.length_take]; omega
      simp only [prefixLinesT, eq_self_iff_true, if_true, List.length_append,
        List.length_drop, htk]
      omega
    · have hlt : s < e := lt_of_le_of_ne h1 hse
      have hls_e : lineStartOf v s ≤ e := lineStartOf_le hlt
      have hle_ge : e ≤ lineEndOf v e := lineEndOf_ge h2
      have hle_le : lineEndOf v e ≤ v.length := lineEndOf_le v e
      have hls_len : lineStartOf v s ≤ v.length := le_trans hls_e h2
      have htk : (v.take (lineStartOf v s)).length = lineStartOf v s := by
        rw [List.length_take]; omega
      rw [prefixLinesT_block pre ph tl v s e hse]
      simp only [List.length_append, List.length_drop, htk]
      omega
  · intro v s e h1 h2
    have hs : s ≤ v.length := le_trans h1 h2
    have htk : (v.take s).length = s := by rw [List.length_take]; omega
    simp only [insertHorizontalRuleT, List.length_append, List.length_drop, htk]
    omega
  · intro v s e h1 h2
    have hs : s ≤ v.length := le_trans h1 h2
    have htk : (v.take s).length = s := by rw [List.length_take]; omega
    simp only [insertLinkT, List.length_append, List.length_cons, List.length_drop, htk]
    omega
  · intro v s e h1 h2
    have hs : s ≤ v.length := le_trans h1 h2
    have htk : (v.take s).length = s := by rw [List.length_take]; omega
    simp only [insertImageT, List.length_append, List.length_cons, List.length_drop, htk]
    omega

/-- **C7 witness**: the invariant evaluated at boundary inputs — bold wrap
of the whole (empty-selection) empty buffer, blockquote over a block in
`"a\nb"`, and rule/link/image at the end of a buffer. -/
theorem toolbar_total_invariant_witness :
    ((wrapSelectionT ("**".toList) ("**".toList) ("Bold text".toList) false [] ⟨0, 0⟩).selectionStart
        ≤ (wrapSelectionT ("**".toList) ("**".toList) ("Bold text".toList) false [] ⟨0, 0⟩).selectionEnd ∧
      (wrapSelectionT ("**".toList) ("**".toList) ("Bold text".toList) false [] ⟨0, 0⟩).selectionEnd
        ≤ (wrapSelectionT ("**".toList) ("**".toList) ("Bold text".toList) false [] ⟨0, 0⟩).value.length) ∧
    ((prefixLinesT ("> ".toList) ("Quote".toList) (some fun line _ => stripQuoteMark line)
          ("a\nb".toList) ⟨0, 3⟩).selectionStart
        ≤ (prefixLinesT ("> ".toList) ("Quote".toList) (some fun line _ => stripQuoteMark line)
          ("a\nb".toList) ⟨0, 3⟩).selectionEnd ∧
      (prefixLinesT ("> ".toList) ("Quote".toList) (some fun line _ => stripQuoteMark line)
          ("a\nb".toList) ⟨0, 3⟩).selectionEnd
        ≤ (prefixLinesT ("> ".toList) ("Quote".toList) (some fun line _ => stripQuoteMark line)
          ("a\nb".toList) ⟨0, 3⟩).value.length) ∧
    ((insertHorizontalRuleT ("ab".toList) ⟨2, 2⟩).selectionEnd
        ≤ (insertHorizontalRuleT ("ab".toList) ⟨2, 2⟩).value.length) ∧
    ((insertLinkT ("ab".toList) ⟨0, 2⟩).selectionEnd
        ≤ (insertLinkT ("ab".toList) ⟨0, 2⟩).value.length) ∧
    ((insertImageT ("ab".toList) ⟨0, 2⟩).selectionEnd
        ≤ (insertImageT ("ab".toList) ⟨0, 2⟩).value.length) := by
  refine ⟨?_, ?_, ?_, ?_, ?_⟩
  · exact toolbar_total_invariant.1 ("**".toList) ("**".toList) ("Bold text".toList)
      false [] 0 0 (by decide) (by decide)
  · exact toolbar_total_invariant.2.1 ("> ".toList) ("Quote".toList)
      (some fun line _ => stripQuoteMark line) ("a\nb".toList) 0 3 (by decide) (by decide)
  · exact (toolbar_total_invariant.2.2.1 ("ab".toList) 2 2 (by decide) (by decide)).2
  · exact (toolbar_total_invariant.2.2.2.1 ("ab".toList) 0 2 (by decide) (by decide)).2
  · exact (toolbar_total_invariant.2.2.2.2 ("ab".toList) 0 2 (by decide) (by decide)).2

/-! ## C6: ordered-list renumbering -/

theorem splitOnNL_mem_no_newline :
    ∀ (v : List Char), ∀ l ∈ splitOnNL v, '\n' ∉ l := by
  intro v
  induction v with
  | nil =>
    intro l hl
    rw [splitOnNL, List.mem_singleton] at hl
    subst hl
    exact List.not_mem_nil '\n'
  | cons c rest ih =>
    intro l hl
    rcases hsp : splitOnNL rest with - | ⟨l0, ls⟩
    · exact absurd hsp (splitOnNL_ne_nil rest)
    · rw [splitOnNL, hsp] at hl
      have hl2 : l ∈ (if c = '\n' then [] :: l0 :: ls else (c :: l0) :: ls) := hl
      by_cases hc : c = '\n'
      · rw [if_pos hc] at hl2
        rcases List.mem_cons.mp hl2 with rfl | hl'
        · exact List.not_mem_nil '\n'
        · exact ih l (hsp ▸ hl')
      · rw [if_neg hc] at hl2
        rcases List.mem_cons.mp hl2 with rfl | hl'
        · intro hmem
          rcases List.mem_cons.mp hmem with heq | hmem'
          · exact hc heq.symm
          · exact ih l0 (hsp ▸ List.mem_cons_self l0 ls) hmem'
        · exact ih l (hsp ▸ List.mem_cons_of_mem l0 hl')

theorem mem_of_mem_stripNumDot {c : Char} {l : List Char}
    (h : c ∈ stripNumDot l) : c ∈ l := by
  rw [stripNumDot] at h
  by_cases h0 : l.takeWhile Char.isDigit = []
  · rwa [if_pos h0] at h
  · rw [if_neg h0] at h
    rcases hdw : l.dropWhile Char.isDigit with - | ⟨c', rest⟩
    · rw [hdw] at h
      exact h
    · rw [hdw] at h
      have h' : c ∈ (if c' = '.' then rest.dropWhile (fun c => isWS c) else l) := h
      by_cases hc : c' = '.'
      · rw [if_pos hc] at h'
        have hrest : c ∈ rest := (List.dropWhile_sublist _).subset h'
        have hmem : c ∈ l.dropWhile Char.isDigit := by
          rw [hdw]
          exact List.mem_cons_of_mem c' hrest
        exact (List.dropWhile_sublist _).subset hmem
      · rwa [if_neg hc] at h'

theorem mem_of_mem_trimStart {c : Char} {l : List Char}
    (h : c ∈ trimStart l) : c ∈ l :=
  (List.dropWhile_sublist _).subset h

theorem natToCharsAux_mem :
    ∀ fuel n c, c ∈ natToCharsAux fuel n → ∃ d, d < 10 ∧ c = Char.ofNat (48 + d) := by
  intro fuel
  induction fuel with
  | zero =>
    intro n c hc
    rw [natToCharsAux] at hc
    exact absurd hc (List.not_mem_nil c)
  | succ fuel ih =>
    intro n c hc
    rw [natToCharsAux] at hc
    by_cases h0 : n = 0
    · rw [if_pos h0] at hc
      exact absurd hc (List.not_mem_nil c)
    · rw [if_neg h0] at hc
      rcases List.mem_append.mp hc with hl | hr
      · exact ih (n / 10) c hl
      · rw [List.mem_singleton] at hr
        exact ⟨n % 10, Nat.mod_lt n (by omega), hr⟩

theorem newline_not_mem_natToChars (n : Nat) : '\n' ∉ natToChars n := by
  intro h
  rw [natToChars] at h
  by_cases h0 : n = 0
  · rw [if_pos h0, List.mem_singleton] at h
    exact absurd h (by decide)
  · rw [if_neg h0] at h
    obtain ⟨d, hd, hc⟩ := natToCharsAux_mem n n '\n' h
    have hno : ∀ d, d < 10 → ¬ ('\n' = Char.ofNat (48 + d)) := by decide
    exact hno d hd hc

/-- The empty prefix passes the `startsWith` guard, so `prefixLines("")`
applies `transformLine` verbatim. -/
theorem gLine_nil (tl : List Char → Nat → List Char) (i : Nat) (l : List Char) :
    gLine [] (some tl) i l = tl l i := by
  rw [gLine]
  have hpre : ([] : List Char).isPrefixOf (tl l i) = true := by
    cases tl l i <;> rfl
  simp only [hpre, if_true]

theorem jsSlice_middle_of_eq (x y z : List Char) (a b : Nat)
    (ha : x.length = a) (hb : b = a + y.length) :
    jsSlice (x ++ y ++ z) a b = y := by
  subst ha
  subst hb
  exact jsSlice_middle x y z

/-- The returned selection of a block-mode `prefixLines` spans exactly the
rewritten block. -/
theorem prefixLinesT_block_slice (pre ph : List Char)
    (tl : Option (List Char → Nat → List Char)) (v : List Char) (s e : Nat)
    (hlt : s < e) :
    jsSlice (prefixLinesT pre ph tl v ⟨s, e⟩).value
        (prefixLinesT pre ph tl v ⟨s, e⟩).selectionStart
        (prefixLinesT pre ph tl v ⟨s, e⟩).selectionEnd
      = joinNL (mapLinesIdx (gLine pre tl) 0 (splitOnNL (blockOf v s e))) := by
  rw [prefixLinesT_block pre ph tl v s e (Nat.ne_of_lt hlt)]
  rw [blockOf]
  exact jsSlice_middle_of_eq _ _ _ _ _
    (by show (v.take (lineStartOf v s)).length = lineStartOf v s
        rw [List.length_take]
        have hle := lineStartOf_le_length v s
        omega)
    rfl

/-- **C6.**  For every buffer and every non-empty selection, applying the
ordered-list operation rewrites the expanded block line by line: the `i`-th
line (0-based here, so `i+1` is the 1-based number) becomes
`"{i+1}. "` followed by the line with any existing leading `\d+\.\s*`
marker stripped and remaining leading whitespace trimmed — numbering always
restarts at `1` within the block regardless of the lines' original
numbers.  (The lines of the result are read back off the returned
selection, which spans the rewritten block.) -/
theorem insertOrderedList_renumbers (v : List Char) (s e : Nat)
    (h1 : s < e) (h2 : e ≤ v.length) :
    splitOnNL (jsSlice (insertOrderedListT v ⟨s, e⟩).value
        (insertOrderedListT v ⟨s, e⟩).selectionStart
        (insertOrderedListT v ⟨s, e⟩).selectionEnd)
      = mapLinesIdx
          (fun i line => natToChars (i + 1) ++ '.' :: ' ' :: trimStart (stripNumDot line))
          0 (splitOnNL (blockOf v s e)) := by
  have hslice := prefixLinesT_block_slice [] ("1. List item".toList)
    (some fun line index => natToChars (index + 1) ++ '.' :: ' ' :: trimStart (stripNumDot line))
    v s e h1
  rw [insertOrderedListT, hslice]
  have hmap : mapLinesIdx
      (gLine [] (some fun line index =>
        natToChars (index + 1) ++ '.' :: ' ' :: trimStart (stripNumDot line)))
      0 (splitOnNL (blockOf v s e))
      = mapLinesIdx
          (fun i line => natToChars (i + 1) ++ '.' :: ' ' :: trimStart (stripNumDot line))
          0 (splitOnNL (blockOf v s e)) := by
    refine mapLinesIdx_congr _ _ _ 0 ?_
    intro k hk
    exact gLine_nil _ _ _
  rw [hmap]
  refine splitOnNL_joinNL _ ?_ ?_
  · have hlen : (mapLinesIdx
        (fun i line => natToChars (i + 1) ++ '.' :: ' ' :: trimStart (stripNumDot line))
        0 (splitOnNL (blockOf v s e))).length = (splitOnNL (blockOf v s e)).length :=
      length_mapLinesIdx _ 0 _
    intro hnil
    rw [hnil] at hlen
    exact splitOnNL_ne_nil (blockOf v s e) (List.length_eq_zero.mp hlen.symm)
  · intro x hx
    obtain ⟨k, hk, rfl⟩ := mem_mapLinesIdx _ _ 0 x hx
    intro hmem
    rcases List.mem_append.mp hmem with hdig | htail
    · exact newline_not_mem_natToChars _ hdig
    · rcases List.mem_cons.mp htail with heq | htail'
      · exact absurd heq (by decide)
      · rcases List.mem_cons.mp htail' with heq | htail''
        · exact absurd heq (by decide)
        · have hline : '\n' ∈ (splitOnNL (blockOf v s e)).get ⟨k, hk⟩ :=
            mem_of_mem_stripNumDot (mem_of_mem_trimStart htail'')
          exact splitOnNL_mem_no_newline (blockOf v s e) _
            (List.get_mem _ _ hk) hline

/-- **C6 witness**: the spec's 3-line scenario — a selected block with
arbitrary or missing numbers (`"4. a"`, `"b"`, `"12. c"`; the selection
`{1,8}` also exercises whole-line expansion) comes out numbered
`1.`, `2.`, `3.` in order. -/
theorem insertOrderedList_renumbers_witness :
    splitOnNL (jsSlice (insertOrderedListT ("4. a\nb\n12. c".toList) ⟨1, 8⟩).value
        (insertOrderedListT ("4. a\nb\n12. c".toList) ⟨1, 8⟩).selectionStart
        (insertOrderedListT ("4. a\nb\n12. c".toList) ⟨1, 8⟩).selectionEnd)
      = ["1. a".toList, "2. b".toList, "3. c".toList] :=
  (insertOrderedList_renumbers ("4. a\nb\n12. c".toList) 1 8 (by decide) (by decide)).trans
    (by decide)

/-! ## C5: idempotence of `prefixLines` -/

theorem getD_take_eq (v : List Char) (n i : Nat) (h : i < n) (hn : n ≤ v.length) :
    (v.take n).getD i ' ' = v.getD i ' ' := by
  have hi : i < (v.take n).length := by rw [List.length_take]; omega
  rw [List.getD_eq_getElem _ _ hi, List.getD_eq_getElem _ _ (show i < v.length by omega)]
  exact List.getElem_take v

/-- Applying a block-mode `prefixLines` a second time, with the selection it
returned, reproduces its result exactly, provided the per-line rewrite is
idempotent on the lines of the block (and produces newline-free, non-empty
lines).  This is the marker-already-present guard at the level of the whole
transformation: line expansion, splitting, rewriting and splicing all
stabilise. -/
theorem prefixLinesT_block_idem
    (pre ph : List Char) (tl : Option (List Char → Nat → List Char))
    (v : List Char) (s e : Nat) (hlt : s < e)
    (hline : ∀ k, ∀ hk : k < (splitOnNL (blockOf v s e)).length,
      '\n' ∉ gLine pre tl k ((splitOnNL (blockOf v s e)).get ⟨k, hk⟩) ∧
      gLine pre tl k ((splitOnNL (blockOf v s e)).get ⟨k, hk⟩) ≠ [] ∧
      gLine pre tl k (gLine pre tl k ((splitOnNL (blockOf v s e)).get ⟨k, hk⟩))
        = gLine pre tl k ((splitOnNL (blockOf v s e)).get ⟨k, hk⟩)) :
    prefixLinesT pre ph tl (prefixLinesT pre ph tl v ⟨s, e⟩).value
        ⟨(prefixLinesT pre ph tl v ⟨s, e⟩).selectionStart,
          (prefixLinesT pre ph tl v ⟨s, e⟩).selectionEnd⟩
      = prefixLinesT pre ph tl v ⟨s, e⟩ := by
  simp only [blockOf] at hline
  have h1 := prefixLinesT_block pre ph tl v s e (Nat.ne_of_lt hlt)
  set LS := lineStartOf v s with hLS
  set LE := lineEndOf v e with hLE
  set L := splitOnNL (jsSlice v LS LE) with hLdef
  set ML := mapLinesIdx (gLine pre tl) 0 L with hMLdef
  set F := joinNL ML with hF
  -- basic side facts
  have hts : LS ≤ v.length := by rw [hLS]; exact lineStartOf_le_length v s
  have htklen : (v.take LS).length = LS := by rw [List.length_take]; omega
  have hL_ne : L ≠ [] := by rw [hLdef]; exact splitOnNL_ne_nil _
  have hml_props : ∀ x ∈ ML, '\n' ∉ x ∧ x ≠ [] := by
    intro x hx
    rw [hMLdef] at hx
    obtain ⟨k, hk, rfl⟩ := mem_mapLinesIdx _ _ 0 x hx
    simp only [Nat.zero_add]
    exact ⟨(hline k hk).1, (hline k hk).2.1⟩
  have hML_ne : ML ≠ [] := by
    intro hnil
    have hlen : ML.length = L.length := by rw [hMLdef]; exact length_mapLinesIdx _ 0 _
    rw [hnil] at hlen
    exact hL_ne (List.length_eq_zero.mp hlen.symm)
  obtain ⟨m0, mrest, hMLcons⟩ : ∃ m0 mrest, ML = m0 :: mrest := by
    rcases hx : ML with - | ⟨a, b⟩
    · exact absurd hx hML_ne
    · exact ⟨a, b, rfl⟩
  have hm0 : '\n' ∉ m0 ∧ m0 ≠ [] :=
    hml_props m0 (by rw [hMLcons]; exact List.mem_cons_self m0 mrest)
  have hF_ne : F ≠ [] := by
    rw [hF, hMLcons]
    exact joinNL_ne_nil hm0.2
  have hF_pos : 0 < F.length := List.length_pos.mpr hF_ne
  have hne2 : ¬ LS = LS + F.length := by omega
  have hF_head : F.getD 0 ' ' ≠ '\n' := by
    rw [hF, hMLcons, joinNL_getD_zero mrest hm0.2]
    have h0m : 0 < m0.length := List.length_pos.mpr hm0.2
    rw [List.getD_eq_getElem _ _ h0m]
    intro hc
    exact hm0.1 (hc ▸ List.getElem_mem h0m)
  -- the first application
  rw [h1]
  show prefixLinesT pre ph tl (v.take LS ++ F ++ v.drop LE) ⟨LS, LS + F.length⟩
      = (⟨v.take LS ++ F ++ v.drop LE, LS, LS + F.length⟩ : TransformationResult)
  set V2 := v.take LS ++ F ++ v.drop LE with hV2
  have hV2len : V2.length = LS + F.length + (v.length - LE) := by
    rw [hV2]
    simp only [List.length_append, List.length_drop, htklen]
  have hlen1 : (v.take LS ++ F).length = LS + F.length := by
    rw [List.length_append, htklen]
  have hdropV2 : V2.drop (LS + F.length) = v.drop LE := by
    rw [hV2, ← hlen1]
    exact List.drop_left _ _
  have htakeV2 : V2.take LS = v.take LS := by
    have h := List.take_left (v.take LS) (F ++ v.drop LE)
    rw [htklen] at h
    rw [hV2, List.append_assoc]
    exact h
  have hB2 : jsSlice V2 LS (LS + F.length) = F := by
    rw [hV2]
    exact jsSlice_middle_of_eq _ _ _ _ _ htklen rfl
  -- line-start stability
  have hls2 : lineStartOf V2 LS = LS := by
    by_cases hLS0 : LS = 0
    · have hchar : ¬ (0 < V2.length ∧ V2.getD 0 ' ' = '\n') := by
        rintro ⟨-, hc⟩
        rw [hV2, hLS0, List.take_zero, List.nil_append] at hc
        rw [List.getD_append _ _ ' ' 0 hF_pos] at hc
        exact hF_head hc
      rw [hLS0]
      simp only [lineStartOf, lastNLUpTo]
      rw [show ((max (((0 : Nat) : Int) - 1) 0).toNat) = 0 from by decide]
      rw [lastNLsearch, if_neg hchar]
    · have hpos : 0 < LS := Nat.pos_of_ne_zero hLS0
      have hnlv : LS - 1 < v.length ∧ v.getD (LS - 1) ' ' = '\n' := by
        rw [hLS]
        exact lineStartOf_newline (by rw [← hLS]; exact hpos)
      have hVchar : V2.getD (LS - 1) ' ' = '\n' := by
        rw [hV2, List.append_assoc]
        rw [List.getD_append _ _ ' ' _ (by rw [htklen]; omega)]
        rw [getD_take_eq v LS (LS - 1) (by omega) hts]
        exact hnlv.2
      have hbound : LS - 1 < V2.length := by
        rw [hV2]
        simp only [List.length_append, htklen]
        omega
      simp only [lineStartOf, lastNLUpTo]
      have htn : ((max ((LS : Int) - 1) 0).toNat) = LS - 1 := by omega
      rw [htn, lastNLsearch_hit V2 (LS - 1) hbound hVchar]
      show LS - 1 + 1 = LS
      omega
  -- line-end stability
  have hle2 : lineEndOf V2 (LS + F.length) = LS + F.length := by
    rcases lineEndOf_drop v e with ⟨hEq, hNone⟩ | ⟨t, hT⟩
    · rw [← hLE] at hEq hNone
      simp only [lineEndOf, firstNLFrom]
      rw [hdropV2, hNone]
      show V2.length = LS + F.length
      rw [hV2len, hEq]
      omega
    · rw [← hLE] at hT
      simp only [lineEndOf, firstNLFrom]
      rw [hdropV2, hT]
      rw [show firstNLIn ('\n' :: t) = some 0 from by rw [firstNLIn, if_pos rfl]]
      simp
  -- splitting the rewritten block gives the rewritten lines back
  have hsplitF : splitOnNL F = ML := by
    rw [hF]
    exact splitOnNL_joinNL ML hML_ne (fun x hx => (hml_props x hx).1)
  -- the per-line rewrite is idempotent on the rewritten lines
  have hMLML : mapLinesIdx (gLine pre tl) 0 ML = ML := by
    rw [hMLdef, mapLinesIdx_comp]
    refine mapLinesIdx_congr _ _ _ 0 ?_
    intro k hk
    simp only [Nat.zero_add]
    exact (hline k hk).2.2
  -- assemble the second application
  rw [prefixLinesT_block pre ph tl V2 LS (LS + F.length) hne2]
  rw [hls2, hle2, hB2, hsplitF, hMLML, ← hF, hdropV2, htakeV2]

/-- **C5, counterexample.**  The claim asserts that on a block of lines
already carrying the operation's marker, applying the same `prefixLines`
operation a second time produces the same text as applying it once.  On the
nested blockquote line `"> > > x"` (which carries the `"> "` marker) the
first application strips one quote level (`transformLine` removes `>␣`, and
the result still starts with the prefix, so the guard suppresses the
re-prefix): it yields `"> > x"`; the second application yields `"> x"` —
the texts differ. -/
theorem blockquote_twice_differs :
    (blockquoteT (blockquoteT ("> > > x".toList) ⟨0, 7⟩).value
        ⟨(blockquoteT ("> > > x".toList) ⟨0, 7⟩).selectionStart,
          (blockquoteT ("> > > x".toList) ⟨0, 7⟩).selectionEnd⟩).value
      ≠ (blockquoteT ("> > > x".toList) ⟨0, 7⟩).value := by
  decide

/-- **C5, amended.**  (1) Applying a `prefixLines` operation at an
unselected caret inserts `prefix + placeholder` at the caret and selects the
placeholder — so two applications at unselected carets produce two
independent placeholder insertions, never doubled markers on one line.
(2) Applying the operation to a non-empty selection and then a second time
to the returned selection (the rewritten block) produces the same result as
applying it once, provided the per-line rewrite is idempotent on the block's
lines (newline-free and non-empty) — which holds for lines carrying a
single, non-nested marker, e.g. `"> a"` but not `"> > > x"`. -/
theorem prefixLines_idem :
    (∀ (pre ph : List Char) (tl : Option (List Char → Nat → List Char))
        (v : List Char) (c : Nat),
      prefixLinesT pre ph tl v ⟨c, c⟩
        = ⟨v.take c ++ pre ++ ph ++ v.drop c,
            c + pre.length, c + pre.length + ph.length⟩) ∧
    (∀ (pre ph : List Char) (tl : Option (List Char → Nat → List Char))
        (v : List Char) (s e : Nat),
      s < e →
      (∀ k, ∀ hk : k < (splitOnNL (blockOf v s e)).length,
        '\n' ∉ gLine pre tl k ((splitOnNL (blockOf v s e)).get ⟨k, hk⟩) ∧
        gLine pre tl k ((splitOnNL (blockOf v s e)).get ⟨k, hk⟩) ≠ [] ∧
        gLine pre tl k (gLine pre tl k ((splitOnNL (blockOf v s e)).get ⟨k, hk⟩))
          = gLine pre tl k ((splitOnNL (blockOf v s e)).get ⟨k, hk⟩)) →
      prefixLinesT pre ph tl (prefixLinesT pre ph tl v ⟨s, e⟩).value
          ⟨(prefixLinesT pre ph tl v ⟨s, e⟩).selectionStart,
            (prefixLinesT pre ph tl v ⟨s, e⟩).selectionEnd⟩
        = prefixLinesT pre ph tl v ⟨s, e⟩) := by
  constructor
  · intro pre ph tl v c
    simp only [prefixLinesT, eq_self_iff_true, if_true]
    simp [List.append_assoc]
  · intro pre ph tl v s e hlt hline
    exact prefixLinesT_block_idem pre ph tl v s e hlt hline

/-- **C5 witness**: re-applying blockquote to the already-quoted
(single-level) selected block `"> a\n> b"` leaves the buffer unchanged. -/
theorem prefixLines_idem_witness :
    prefixLinesT ("> ".toList) ("Quote".toList) (some fun line _ => stripQuoteMark line)
        (prefixLinesT ("> ".toList) ("Quote".toList) (some fun line _ => stripQuoteMark line)
          ("> a\n> b".toList) ⟨0, 7⟩).value
        ⟨(prefixLinesT ("> ".toList) ("Quote".toList) (some fun line _ => stripQuoteMark line)
            ("> a\n> b".toList) ⟨0, 7⟩).selectionStart,
          (prefixLinesT ("> ".toList) ("Quote".toList) (some fun line _ => stripQuoteMark line)
            ("> a\n> b".toList) ⟨0, 7⟩).selectionEnd⟩
      = prefixLinesT ("> ".toList) ("Quote".toList) (some fun line _ => stripQuoteMark line)
          ("> a\n> b".toList) ⟨0, 7⟩ :=
  prefixLines_idem.2 ("> ".toList) ("Quote".toList) (some fun line _ => stripQuoteMark line)
    ("> a\n> b".toList) 0 7 (by decide) (by decide)

end Lit
